import Mathlib

set_option maxRecDepth 4000
set_option allowUnsafeReducibility true
attribute [local semireducible] Rat.add Rat.mul Rat.sub Rat.inv Rat.div

/-!
# Verification of the `verus_lemma_finder` search and normalization engine

A shallow embedding of the search/ranking core of the `verus_lemma_finder`
repository (files `src/verus_lemma_finder/normalization.py`,
`search.py`, `models.py`, `config.py`), together with theorems settling the
behavioural claims about it.

Modelling conventions:

* Python strings are modelled as `List Char` (`Str`); all character classes
  (`\w`, `\s`, the operator class) follow Python's `re` semantics restricted
  to ASCII input, which is the only input the engine receives.
* Python floats are modelled as rationals (`ℚ`): every score computation in
  the source is a sum/product/quotient of term counts, configuration weights
  and similarity values, and the claims under study are order/interval
  properties of those expressions.
* The sentence-embedding model is external to the repository (the spec
  treats it as an opaque text → vector function) and the `numpy` cosine
  scoring is performed over its output; the composite
  "encode the query, cosine it against row i of the loaded matrix" is
  therefore modelled as an opaque similarity oracle `Str → Nat → ℚ` carried
  by the engine.  `none` models an engine whose matrix is not loaded
  (`use_embeddings=False`, missing file, or unavailable library).
* The `re.sub`/`re.findall`/`re.search` calls of the source are embedded
  operationally, pattern by pattern, following the exact backtracking
  priorities of Python's engine (leftmost match, greedy `\s+` tried
  longest-first, lazy `(.+?)` tried shortest-first); each definition's doc
  comment records the pattern it implements and, where the implementation
  works on the word-run decomposition of the string, why that decomposition
  captures the pattern's `\b` anchors exactly.
* `list.sort(key=..., reverse=True)` in Python is a stable descending sort;
  it is modelled by `List.insertionSort` with a `≥` comparator on scores
  (insertion sort with `≥` keeps the original order of equal keys, exactly
  the stability Python guarantees).  `np.argsort(...)[::-1]` leaves tie
  order unspecified (quicksort); it is modelled with the same stable
  descending sort, and no theorem below depends on tie order among equal
  similarities.
-/

namespace VLF

/-- Python strings, at character granularity. -/
abbrev Str := List Char

/-- Python `re` word character `\w` (ASCII): letters, digits, underscore. -/
def isWordChar (c : Char) : Bool := c.isAlphanum || c = '_'

/-- Python `re` whitespace `\s` (ASCII): space, tab, newline, CR, FF, VT. -/
def isSpaceChar (c : Char) : Bool :=
  c = ' ' || c = '\t' || c = '\n' || c = '\r' || c = '\x0c' || c = '\x0b'

/-- The operator/comparator character class of
`QueryNormalizer._normalize_variables` (the characters `*` `+` `-` `/` `<`
`>` `=`). -/
def isOpChar (c : Char) : Bool :=
  c = '*' || c = '+' || c = '-' || c = '/' || c = '<' || c = '>' || c = '='

/-- ASCII letter test: the class `[a-z]` matched under `re.IGNORECASE`
covers both cases. -/
def isVarLetter (c : Char) : Bool := c.isAlpha

/-- Python `str.lower()` (ASCII). -/
def lower (s : Str) : Str := s.map Char.toLower

/-- One step of the maximal-run decomposition: prepend `c` to the first run
when it has the same word-character status, otherwise start a new run. -/
def runStep (c : Char) (acc : List Str) : List Str :=
  match acc with
  | [] => [[c]]
  | r :: rs =>
    match r with
    | [] => [c] :: rs
    | d :: _ => if isWordChar c = isWordChar d then (c :: r) :: rs else [c] :: r :: rs

/-- Maximal runs of characters of equal `isWordChar` status, in order.
`(runs s).flatten = s`; the word runs are exactly Python's `\w+` matches. -/
def runs (s : Str) : List Str := s.foldr runStep []

/-- Whether a (nonempty) run is a word run. -/
def isWordRun (r : Str) : Bool :=
  match r with
  | [] => false
  | c :: _ => isWordChar c

/-- `re.findall(r'\w+', s)`: the maximal word-character runs of `s`. -/
def tokens (s : Str) : List Str := (runs s).filter isWordRun

/-- `re.sub(rf"\b{key}\b", repl, s, flags=re.IGNORECASE)` for a nonempty
all-letter `key` (the source only substitutes the fixed operator words and
single letters).  Because `key` consists of word characters only, an
occurrence delimited by `\b` on both sides is exactly a maximal word run
case-insensitively equal to `key`; such occurrences can never overlap, and
`re.sub` replaces every one of them.  The substitution therefore maps each
word run equal to `key` (up to case) to `repl` and keeps everything else. -/
def subWord (key repl s : Str) : Str :=
  ((runs s).map (fun r => if isWordRun r && lower r == lower key then repl else r)).flatten

/-- The per-run action of `subWord`. -/
def subRun (key repl r : Str) : Str :=
  if isWordRun r && lower r == lower key then repl else r

theorem subWord_eq_map_subRun (key repl s : Str) :
    subWord key repl s = ((runs s).map (subRun key repl)).flatten := rfl

/-- The ordered rewrite table `QueryNormalizer.math_replacements`
(`normalization.py`): case-insensitive whole-word rewrites, applied in
dictionary (insertion) order. -/
def mathReplacements : List (Str × Str) :=
  [ ("times".toList, "*".toList)
  , ("mul".toList, "*".toList)
  , ("multiply".toList, "*".toList)
  , ("div".toList, "/".toList)
  , ("divide".toList, "/".toList)
  , ("modulo".toList, "mod".toList)
  , ("when".toList, "if".toList)
  , ("iff".toList, "if and only if".toList)
  , ("leq".toList, "<=".toList)
  , ("geq".toList, ">=".toList)
  , ("neq".toList, "!=".toList) ]

/-- `QueryNormalizer._normalize_operators`: fold the rewrite table over the
query, in table order. -/
def normalizeOperators (query : Str) : Str :=
  mathReplacements.foldl (fun acc kv => subWord kv.1 kv.2 acc) query

/-- `QueryNormalizer.normalize_operators_only`. -/
def normalize_operators_only (text : Str) : Str := normalizeOperators text

/-- Case-insensitive literal prefix test. -/
def ciPrefix (key s : Str) : Bool :=
  key.length ≤ s.length && lower (s.take key.length) == lower key

/-- Word-boundary condition looking forward: the next character (if any) is
a non-word character.  Used for a trailing `\b` after word-character text. -/
def noWordAhead (s : Str) : Bool :=
  match s with
  | [] => true
  | c :: _ => !isWordChar c

/-- First alternative of the lookahead of the variable pattern:
the fragment `\s*` followed by the operator class.  Operator characters are
not whitespace, so the `\s*` must consume the whole leading whitespace
run: the test is "the first non-whitespace character is an operator". -/
def lookOp (t : Str) : Bool :=
  match t.dropWhile isSpaceChar with
  | [] => false
  | c :: _ => isOpChar c

/-- Remaining alternatives of the lookahead: `\s+if\b` or `\s+then\b`.
The keywords start with a letter, hence the `\s+` (at least one character)
must consume the whole whitespace run. -/
def lookIfThen (t : Str) : Bool :=
  let u := t.dropWhile isSpaceChar
  decide (t.takeWhile isSpaceChar ≠ []) &&
    ((ciPrefix "if".toList u && noWordAhead (u.drop 2)) ||
     (ciPrefix "then".toList u && noWordAhead (u.drop 4)))

/-- Lookahead of the variable pattern:
operator after optional space, or `if`/`then` after mandatory space. -/
def varLookahead (t : Str) : Bool := lookOp t || lookIfThen t

/-- `re.findall` for the variable pattern of
`QueryNormalizer._normalize_variables` — a single letter (`re.IGNORECASE`)
delimited by `\b` on both sides, positive lookahead `varLookahead` — on the
run decomposition.  A match is exactly a maximal word run of length one
whose character is a letter and whose following text satisfies the
lookahead: the surrounding characters are non-word precisely because the
run is maximal.  Matches have length one, so they never overlap and
`re.findall` collects all of them left to right. -/
def findVarsRuns : List Str → List Char
  | [] => []
  | r :: rest =>
    (match r with
     | [c] => if isWordChar c && isVarLetter c && varLookahead rest.flatten then [c] else []
     | _ => []) ++ findVarsRuns rest

/-- All single-letter variables found in the query, in order of occurrence
(original case, as returned by `re.findall`). -/
def findVars (query : Str) : List Char := findVarsRuns (runs query)

/-- The first-seen-order, case-insensitive deduplication of the found
variables: `if v.lower() not in [u.lower() for u in unique_vars]:
unique_vars.append(v.lower())`. -/
def dedupVars (found : List Char) : List Char :=
  found.foldl
    (fun acc v => if acc.map Char.toLower |>.contains v.toLower then acc else acc ++ [v.toLower])
    []

/-- The generic replacement name `var{i+1}` for the i-th variable
(0-indexed); the index is rendered in decimal as Python's f-string does. -/
def genericName (i : Nat) : Str := "var".toList ++ Nat.toDigits 10 (i + 1)

/-- `QueryNormalizer._normalize_variables`: find the single-letter
variables, deduplicate case-insensitively preserving first appearance,
sort alphabetically (`unique_vars.sort()`), and substitute the k-th letter
by `var{k}` everywhere as a whole word, case-insensitively. -/
def normalizeVariables (query : Str) : Str :=
  let found := findVars query
  if found = [] then query
  else
    let uniqueVars := (dedupVars found).insertionSort (· ≤ ·)
    (uniqueVars.enum).foldl (fun acc iv => subWord [iv.2] (genericName iv.1) acc) query

/-- `QueryNormalizer.normalize`: operator rewrites, then variable
anonymization. -/
def normalize (query : Str) : Str := normalizeVariables (normalizeOperators query)

end VLF

namespace VLF

example : tokens "ab c_3 *d".toList = ["ab".toList, "c_3".toList, "d".toList] := by decide

example : subWord "times".toList "*".toList "a times b Times".toList = "a * b *".toList := by decide

example : normalizeOperators "a times b leq c".toList = "a * b <= c".toList := by decide

example : normalizeOperators "iff".toList = "if and only if".toList := by decide

example : normalizeOperators "a multiply b".toList = "a * b".toList := by decide

example : normalizeOperators "x modulo y".toList = "x mod y".toList := by decide

end VLF

namespace VLF

example : findVars "a * b <= c".toList = ['a', 'b'] := by decide

example : normalize "a * b <= c".toList = "var1 * var2 <= c".toList := by decide

example : normalize "x * y <= z".toList = "var1 * var2 <= z".toList := by decide

example : normalize "b * a <= c".toList = "var2 * var1 <= c".toList := by decide

example : normalize "if a times b <= c then a <= c div b".toList =
    "if var1 * var2 <= var3 then var1 <= var3 / var2".toList := by decide

end VLF

namespace VLF

/-- Python substring containment (`needle in haystack`), case-sensitive. -/
def containsSub (needle hay : Str) : Bool :=
  (List.range (hay.length + 1)).any fun i => needle.isPrefixOf (hay.drop i)

/-- Python `str.replace(old, new)`: replace every non-overlapping occurrence
of `old`, scanning left to right, case-sensitively.  The scan consumes at
least one character per step, so fuel `s.length` can never run out. -/
def strReplaceFuel (old new : Str) : Nat → Str → Str
  | _, [] => []
  | 0, s => s
  | n + 1, c :: rest =>
    if old ≠ [] && old.isPrefixOf (c :: rest) then
      new ++ strReplaceFuel old new n ((c :: rest).drop old.length)
    else
      c :: strReplaceFuel old new n rest

/-- Python `str.replace(old, new)`. -/
def strReplace (old new s : Str) : Str := strReplaceFuel old new s.length s

/-- Python `str.strip()`: remove leading and trailing whitespace. -/
def stripStr (s : Str) : Str :=
  ((s.dropWhile isSpaceChar).reverse.dropWhile isSpaceChar).reverse

/-- Length of the leading whitespace run. -/
def wsLen (s : Str) : Nat := (s.takeWhile isSpaceChar).length

/-- No-newline test for text matched by `.` (which excludes `\n`). -/
def dotOk (s : Str) : Bool := s.all (· ≠ '\n')

/-- Match attempt for `\s+then\s+(.+?)$` at the tail `rest2`, as used by the
forward pattern `if\s+(.+?)\s+then\s+(.+?)$`.  `then` starts with a
non-whitespace character, so the greedy `\s+` before it must consume the
whole whitespace run; the greedy `\s+` after it backtracks by exactly one
character when the remaining text is empty, handing one whitespace
character to the lazy `(.+?)$` (which must be nonempty and
newline-free). -/
def thenTail (rest2 : Str) : Option Str :=
  let r2 := wsLen rest2
  if r2 = 0 then none
  else if ciPrefix "then".toList (rest2.drop r2) then
    let rest3 := rest2.drop (r2 + 4)
    let r3 := wsLen rest3
    if r3 = 0 then none
    else
      let concl := rest3.drop r3
      if concl ≠ [] && dotOk concl then some concl
      else if concl = [] && r3 ≥ 2 && dotOk (rest3.drop (r3 - 1)) then some (rest3.drop (r3 - 1))
      else none
  else none

/-- Match attempt for `\s+(.+?)\s+then\s+(.+?)$` just after a literal `if`:
the greedy `\s+` is tried longest-first (`ws1` descending over the leading
whitespace run), and for each choice the lazy condition `(.+?)` is tried
shortest-first (`e` ascending). -/
def ifTail (t : Str) : Option (Str × Str) :=
  let m := wsLen t
  ((List.range m).map (fun j => m - j)).findSome? fun ws1 =>
    (List.range (t.length - ws1)).findSome? fun d =>
      let e := ws1 + 1 + d
      let cond := (t.drop ws1).take (1 + d)
      if dotOk cond then (thenTail (t.drop e)).map (fun concl => (cond, concl))
      else none

/-- `re.search(r"if\s+(.+?)\s+then\s+(.+?)$", query, flags=re.IGNORECASE)`:
the leftmost position where the literal `if` begins a full match wins; the
returned pair is (condition, conclusion) — `match.group(1), match.group(2)`. -/
def matchIfThen (query : Str) : Option (Str × Str) :=
  (List.range query.length).findSome? fun p =>
    match query.drop p with
    | c1 :: c2 :: t =>
      if c1.toLower = 'i' && c2.toLower = 'f' then ifTail t else none
    | _ => none

/-- `re.search(r"^(.+?)\s+if\s+(.+)$", query, flags=re.IGNORECASE)`: the
match is anchored at the start; the lazy conclusion `(.+?)` is tried
shortest-first; `if` starts with a non-whitespace character so the greedy
`\s+` before it consumes the whole whitespace run; the greedy `(.+)$` takes
everything to the end (newline-free, nonempty), the `\s+` before it
backtracking by exactly one character when the remainder is empty.
Returns (conclusion, condition) — `match.group(1), match.group(2)`. -/
def matchBackIf (query : Str) : Option (Str × Str) :=
  (List.range query.length).findSome? fun d =>
    let e := 1 + d
    let concl := query.take e
    if dotOk concl then
      let rest := query.drop e
      let r1 := wsLen rest
      if r1 = 0 then none
      else if ciPrefix "if".toList (rest.drop r1) then
        let rest2 := rest.drop (r1 + 2)
        let r2 := wsLen rest2
        if r2 = 0 then none
        else
          let cond := rest2.drop r2
          if cond ≠ [] && dotOk cond then some (concl, cond)
          else if cond = [] && r2 ≥ 2 && dotOk (rest2.drop (r2 - 1)) then
            some (concl, rest2.drop (r2 - 1))
          else none
      else none
    else none

/-- One match of `\s+and\s+` (`re.IGNORECASE`): the leftmost whitespace
position followed (after its maximal run — `and` starts with a
non-whitespace character) by `and` and at least one more whitespace
character.  Returns the text before the match and the text after its end
(the greedy trailing `\s+` consumes the whole run). -/
def findAndSep (s : Str) : Option (Str × Str) :=
  (List.range s.length).findSome? fun p =>
    let t := s.drop p
    let r := wsLen t
    if r = 0 then none
    else if ciPrefix "and".toList (t.drop r) then
      let t2 := t.drop (r + 3)
      let r2 := wsLen t2
      if r2 = 0 then none
      else some (s.take p, t2.drop r2)
    else none

/-- `re.split(r"\s+and\s+", s, flags=re.IGNORECASE)`: split at each
non-overlapping leftmost match.  Each match consumes at least five
characters, so fuel `s.length` can never run out. -/
def splitAndFuel : Nat → Str → List Str
  | 0, s => [s]
  | n + 1, s =>
    match findAndSep s with
    | none => [s]
    | some (pre, post) => pre :: splitAndFuel n post

/-- `re.split(r"\s+and\s+", s, flags=re.IGNORECASE)`. -/
def splitAnd (s : Str) : List Str := splitAndFuel s.length s

/-- Remove duplicates preserving the order of first occurrence (the
`seen`-set loop at the end of `generate_variations`). -/
def dedupFirst (l : List Str) : List Str :=
  (l.foldl (fun acc v => if acc.contains v then acc else acc ++ [v]) [])

/-- `QueryNormalizer.generate_variations`: the original query, then the
`mod`/`%` conversion, then the forward→backward implication rewrite, then
the backward→forward rewrite with optional `and`-clause swaps, deduplicated
preserving first occurrence. -/
def generate_variations (query : Str) : List Str :=
  let variations := [query]
  let variations := variations ++
    (if containsSub "mod".toList (lower query) && !containsSub "%".toList query then
      [strReplace "mod".toList "%".toList query]
    else if containsSub "%".toList query && !containsSub "mod".toList (lower query) then
      [strReplace "%".toList "mod".toList query]
    else [])
  let variations := variations ++
    (match matchIfThen query with
     | some cc =>
       [stripStr cc.2 ++ " if ".toList ++ stripStr cc.1]
     | none => [])
  let variations := variations ++
    (match matchBackIf query with
     | some cc =>
       if !containsSub "then".toList (lower query) then
         let conclusion := stripStr cc.1
         let condition := stripStr cc.2
         ("if ".toList ++ condition ++ " then ".toList ++ conclusion) ::
         (if containsSub " and ".toList (lower condition) then
           match splitAnd condition with
           | [p0, p1] =>
             let swapped := p1 ++ " and ".toList ++ p0
             [ conclusion ++ " if ".toList ++ swapped
             , "if ".toList ++ swapped ++ " then ".toList ++ conclusion ]
           | _ => []
         else [])
       else []
     | none => [])
  dedupFirst variations

end VLF

namespace VLF

example : matchIfThen "if a then b".toList = some ("a".toList, "b".toList) := by decide

example : matchIfThen "if   then y".toList = some (" ".toList, "y".toList) := by decide

example : matchIfThen "if  then x".toList = none := by decide

example : matchIfThen "gif x then y".toList = some ("x".toList, "y".toList) := by decide

example : matchBackIf "a if b if c".toList = some ("a".toList, "b if c".toList) := by decide

example : matchBackIf "x if  ".toList = some ("x".toList, " ".toList) := by decide

example : matchBackIf "a iff b".toList = none := by decide

example : splitAnd "x * y <= z and y > 0".toList = ["x * y <= z".toList, "y > 0".toList] := by decide

example : splitAnd "a and b and c".toList = ["a".toList, "b".toList, "c".toList] := by decide

example : generate_variations "if x > 0 then y < 5".toList =
    ["if x > 0 then y < 5".toList, "y < 5 if x > 0".toList] := by decide

example : generate_variations "x mod 5 = 0".toList =
    ["x mod 5 = 0".toList, "x % 5 = 0".toList] := by decide

end VLF

namespace VLF

example : generate_variations "x <= z / y if x * y <= z and y > 0".toList =
    [ "x <= z / y if x * y <= z and y > 0".toList
    , "if x * y <= z and y > 0 then x <= z / y".toList
    , "x <= z / y if y > 0 and x * y <= z".toList
    , "if y > 0 and x * y <= z then x <= z / y".toList ] := by decide

example : generate_variations "x mod y if y mod 2".toList =
    [ "x mod y if y mod 2".toList
    , "x % y if y % 2".toList
    , "if y mod 2 then x mod y".toList ] := by decide

example : generate_variations "a % b if c".toList =
    [ "a % b if c".toList
    , "a mod b if c".toList
    , "if c then a % b".toList ] := by decide

example : generate_variations "if   then y".toList =
    [ "if   then y".toList, "y if ".toList ] := by decide

example : generate_variations "modest if android".toList =
    [ "modest if android".toList
    , "%est if android".toList
    , "if android then modest".toList ] := by decide

end VLF

namespace VLF

/-- `models.LemmaInfo`: structured information about a lemma. -/
structure LemmaInfo where
  name : Str
  file_path : Str
  line_number : Option Nat
  documentation : Str
  signature : Str
  requires_clauses : List Str
  ensures_clauses : List Str
  symbol_id : Str
  source : Str
deriving DecidableEq, Repr

/-- Python `" AND ".join(clauses)`. -/
def joinAnd (clauses : List Str) : Str :=
  match clauses with
  | [] => []
  | c :: rest => c ++ (rest.foldr (fun x acc => " AND ".toList ++ x ++ acc) [])

/-- `LemmaInfo.to_searchable_text` with the default `normalize=False` (the
only form the search paths use): the labelled concatenation of name,
documentation, signature and the non-empty clause sections. -/
def LemmaInfo.to_searchable_text (l : LemmaInfo) : Str :=
  let parts :=
    [ "Name: ".toList ++ l.name
    , "Documentation: ".toList ++ l.documentation
    , "Signature: ".toList ++ l.signature ] ++
    (if l.requires_clauses ≠ [] then
      ["Preconditions: ".toList ++ joinAnd l.requires_clauses] else []) ++
    (if l.ensures_clauses ≠ [] then
      ["Postconditions: ".toList ++ joinAnd l.ensures_clauses] else [])
  match parts with
  | [] => []
  | p :: rest => p ++ (rest.foldr (fun x acc => " ".toList ++ x ++ acc) [])

/-- The search engine state after construction (`LemmaSearcher.__init__` +
`load_index`): the loaded lemma records, the similarity oracle standing for
the embedding matrix together with the query encoder (`none` when
`use_embeddings=False` or when the matrix/encoder could not be loaded), and
the relevant `SearchConfig` values (`keyword_weight`, `name_match_boost`,
`doc_match_boost`; defaults 3/10, 2, 3/2). -/
structure LemmaSearcher where
  lemmas : List LemmaInfo
  embeddings : Option (Str → Nat → ℚ)
  keyword_weight : ℚ := 3/10
  name_match_boost : ℚ := 2
  doc_match_boost : ℚ := 3/2

/-- The deduplicated word set of a string, lowercased first:
`set(re.findall(r'\w+', s.lower()))`.  A list without duplicates models the
set; iteration order never matters below (only counts over the set). -/
def termSet (s : Str) : List Str := (tokens (lower s)).dedup

/-- The lexical score of one lemma for a query
(`LemmaSearcher.keyword_search`, body of the loop): term overlap plus
boosted counts of query terms occurring as substrings of the lowercased
name and documentation. -/
def keywordScore (S : LemmaSearcher) (queryTerms : List Str) (l : LemmaInfo) : ℚ :=
  let searchableTerms := termSet l.to_searchable_text
  let overlap := (queryTerms.filter (fun t => searchableTerms.contains t)).length
  let nameMatches := (queryTerms.filter (fun t => containsSub t (lower l.name))).length
  let docMatches := (queryTerms.filter (fun t => containsSub t (lower l.documentation))).length
  (overlap : ℚ) + nameMatches * S.name_match_boost + docMatches * S.doc_match_boost

/-- Stable descending sort by score — Python
`results.sort(key=lambda x: x[1], reverse=True)`. -/
def sortByScore (results : List (LemmaInfo × ℚ)) : List (LemmaInfo × ℚ) :=
  results.insertionSort (fun a b => a.2 ≥ b.2)

/-- `LemmaSearcher.keyword_search`: score every lemma, keep strictly
positive scores, sort descending (stable), truncate to `top_k`. -/
def keyword_search (S : LemmaSearcher) (query : Str) (top_k : Nat) : List (LemmaInfo × ℚ) :=
  let queryTerms := termSet query
  let results := S.lemmas.filterMap fun l =>
    let score := keywordScore S queryTerms l
    if score > 0 then some (l, score) else none
  (sortByScore results).take top_k

/-- `LemmaSearcher.semantic_search`: when the matrix and encoder are
available, rank all lemmas by the similarity oracle
(`np.argsort(similarities)[::-1][:top_k]`, modelled as a stable descending
sort over the positionally indexed lemmas) and keep `top_k`; otherwise fall
back to keyword search. -/
def semantic_search (S : LemmaSearcher) (query : Str) (top_k : Nat) : List (LemmaInfo × ℚ) :=
  match S.embeddings with
  | none => keyword_search S query top_k
  | some sim =>
    let scored := S.lemmas.enum.map fun il => (il.2, sim query il.1)
    (sortByScore scored).take top_k

/-- Ordered dictionary (Python `dict`) as an association list keyed by
lemma name, insertion-ordered; updating an existing key keeps its
position. -/
def dictSet (d : List (Str × (LemmaInfo × ℚ))) (key : Str) (v : LemmaInfo × ℚ) :
    List (Str × (LemmaInfo × ℚ)) :=
  if d.any (fun kv => kv.1 == key) then
    d.map (fun kv => if kv.1 == key then (key, v) else kv)
  else d ++ [(key, v)]

/-- Lookup in the ordered dictionary. -/
def dictGet (d : List (Str × (LemmaInfo × ℚ))) (key : Str) : Option (LemmaInfo × ℚ) :=
  (d.find? (fun kv => kv.1 == key)).map (·.2)

/-- The semantic half of `hybrid_search`'s combination: write each
semantically retrieved lemma into `combined_scores` with score
`normalized * (1 - keyword_weight)` (later entries overwrite). -/
def hybridSemPass (w : ℚ) (maxSem : ℚ) (semResults : List (LemmaInfo × ℚ)) :
    List (Str × (LemmaInfo × ℚ)) :=
  semResults.foldl
    (fun d ls =>
      let normalized := if maxSem > 0 then ls.2 / maxSem else 0
      dictSet d ls.1.name (ls.1, normalized * (1 - w)))
    []

/-- The keyword half of `hybrid_search`'s combination: add
`normalized * keyword_weight` to an existing entry, or insert a fresh
one. -/
def hybridKwPass (w : ℚ) (maxKw : ℚ) (kwResults : List (LemmaInfo × ℚ))
    (d : List (Str × (LemmaInfo × ℚ))) : List (Str × (LemmaInfo × ℚ)) :=
  kwResults.foldl
    (fun d ls =>
      let normalized := if maxKw > 0 then ls.2 / maxKw else 0
      match dictGet d ls.1.name with
      | some lv => dictSet d ls.1.name (lv.1, lv.2 + normalized * w)
      | none => dictSet d ls.1.name (ls.1, normalized * w))
    d

/-- Python `max((score for _, score in results), default=1.0)`. -/
def maxScore (results : List (LemmaInfo × ℚ)) : ℚ :=
  match results.map (·.2) with
  | [] => 1
  | s :: rest => rest.foldl max s

/-- `LemmaSearcher.hybrid_search` with an explicit `keyword_weight`:
fetch `2*top_k` semantic and keyword results, normalize each list by its
own maximum, blend per lemma name, sort descending, truncate. -/
def hybrid_search_w (S : LemmaSearcher) (query : Str) (top_k : Nat) (w : ℚ) :
    List (LemmaInfo × ℚ) :=
  match S.embeddings with
  | none => keyword_search S query top_k
  | some _ =>
    let semResults := semantic_search S query (top_k * 2)
    let kwResults := keyword_search S query (top_k * 2)
    let d := hybridSemPass w (maxScore semResults) semResults
    let d := hybridKwPass w (maxScore kwResults) kwResults d
    (sortByScore (d.map (·.2))).take top_k

/-- `LemmaSearcher.hybrid_search` with the default `keyword_weight=None`,
which reads `config.search.keyword_weight`. -/
def hybrid_search (S : LemmaSearcher) (query : Str) (top_k : Nat) : List (LemmaInfo × ℚ) :=
  hybrid_search_w S query top_k S.keyword_weight

/-- The inter-variant merge of `fuzzy_search`: keep, per lemma name, the
entry with the best score seen so far
(`if key not in all_results or score > all_results[key][1]`). -/
def fuzzyMergeStep (d : List (Str × (LemmaInfo × ℚ))) (ls : LemmaInfo × ℚ) :
    List (Str × (LemmaInfo × ℚ)) :=
  match dictGet d ls.1.name with
  | none => dictSet d ls.1.name ls
  | some lv => if ls.2 > lv.2 then dictSet d ls.1.name ls else d

/-- `LemmaSearcher.fuzzy_search`: normalize, generate variations; with
embeddings, run `hybrid_search(variation, top_k * 2)` for every variation
and merge keeping the best score per lemma name, sort descending, truncate;
without embeddings, run keyword search once on the normalized query. -/
def fuzzy_search (S : LemmaSearcher) (query : Str) (top_k : Nat) : List (LemmaInfo × ℚ) :=
  let normalized := normalize query
  let queryVariations := generate_variations normalized
  match S.embeddings with
  | some _ =>
    let allResults := queryVariations.foldl
      (fun d variation => (hybrid_search S variation (top_k * 2)).foldl fuzzyMergeStep d) []
    (sortByScore (allResults.map (·.2))).take top_k
  | none => keyword_search S normalized top_k

/-- `LemmaSearcher.search`: alias for `fuzzy_search`. -/
def search (S : LemmaSearcher) (query : Str) (top_k : Nat) : List (LemmaInfo × ℚ) :=
  fuzzy_search S query top_k

/-- Modelled from the spec: `LemmaSearcher.get_lemma_by_name` is called from
`api.py` and `cli.py` but its definition is not among the sources; §4.5 of
the spec defines it as "exact string match over loaded lemmas; returns the
first match or none". -/
def get_lemma_by_name (S : LemmaSearcher) (name : Str) : Option LemmaInfo :=
  S.lemmas.find? (fun l => l.name == name)

/-- Modelled from the spec: `LemmaSearcher.find_similar_lemmas` is called
from `api.py` and `cli.py` but its definition is not among the sources;
§4.5 of the spec defines it as "look up a lemma by exact name; if absent,
return empty sequence (not an error); otherwise build its searchable text
(via 4.2's text projection) and run fuzzy_search with that text as the
query, then filter out the source lemma itself from results by name before
truncating to top_k".  The spec does not fix the `top_k` passed to the
inner `fuzzy_search`; `top_k + 1` is used so that the final truncation is
meaningful, and no theorem below depends on that choice. -/
def find_similar_lemmas (S : LemmaSearcher) (name : Str) (top_k : Nat) :
    List (LemmaInfo × ℚ) :=
  match get_lemma_by_name S name with
  | none => []
  | some l =>
    ((fuzzy_search S l.to_searchable_text (top_k + 1)).filter
      (fun ls => ls.1.name ≠ name)).take top_k

end VLF

namespace VLF

/-- A small concrete record used in witnesses and counterexamples. -/
def mkLemma (name doc sig : Str) (req ens : List Str) : LemmaInfo :=
  { name := name, file_path := [], line_number := none, documentation := doc
  , signature := sig, requires_clauses := req, ensures_clauses := ens
  , symbol_id := [], source := "project".toList }

/-- A two-lemma keyword-only engine used in witnesses. -/
def kwEngine : LemmaSearcher :=
  { lemmas :=
      [ mkLemma "lemma_mod_bound".toList "modulo is bounded".toList
          "fn lemma_mod_bound(a: int, b: int)".toList
          ["b > 0".toList] ["a % b < b".toList]
      , mkLemma "lemma_mul_comm".toList []
          "fn lemma_mul_comm(x: int, y: int)".toList
          [] ["x * y == y * x".toList] ]
  , embeddings := none }

example : (keyword_search kwEngine "mod bound".toList 10).map (fun ls => (ls.1.name, ls.2)) =
    [("lemma_mod_bound".toList, 7)] := by decide

example : (keyword_search kwEngine "multiplication x".toList 10).map (fun ls => (ls.1.name, ls.2)) =
    [("lemma_mul_comm".toList, 1)] := by decide

example : (keyword_search kwEngine "a b".toList 10).map (fun ls => (ls.1.name, ls.2)) =
    [("lemma_mod_bound".toList, 15/2), ("lemma_mul_comm".toList, 2)] := by decide

end VLF

namespace VLF

/-- A deterministic similarity oracle for witnesses: queries mentioning
`mod` or `%` are closest to row 0, all others to row 1. -/
def simOracle (q : Str) (i : Nat) : ℚ :=
  if containsSub "mod".toList q || containsSub "%".toList q then
    (if i = 0 then 9/10 else 1/10)
  else
    (if i = 0 then 2/10 else 6/10)

/-- The `kwEngine` lemmas with the similarity oracle loaded. -/
def embEngine : LemmaSearcher := { kwEngine with embeddings := some simOracle }

example : (hybrid_search embEngine "mod bound".toList 10).map (fun ls => (ls.1.name, ls.2)) =
    [("lemma_mod_bound".toList, 1), ("lemma_mul_comm".toList, 7/90)] := by decide

example : (hybrid_search embEngine "x y".toList 10).map (fun ls => (ls.1.name, ls.2)) =
    [("lemma_mul_comm".toList, 1), ("lemma_mod_bound".toList, 7/30)] := by decide

example : normalize "a mod b when b > 0".toList = "a mod var1 if var1 > 0".toList := by decide

example : (fuzzy_search embEngine "a mod b when b > 0".toList 10).map (fun ls => (ls.1.name, ls.2)) =
    [("lemma_mod_bound".toList, 1), ("lemma_mul_comm".toList, 41/180)] := by decide

end VLF

namespace VLF

theorem isWordChar_of_isSpaceChar (c : Char) (h : isSpaceChar c = true) :
    isWordChar c = false := by
  unfold isSpaceChar at h
  simp only [Bool.or_eq_true, decide_eq_true_eq] at h
  rcases h with ((((h | h) | h) | h) | h) | h <;> subst h <;> decide

theorem isWordChar_of_isOpChar (c : Char) (h : isOpChar c = true) :
    isWordChar c = false := by
  unfold isOpChar at h
  simp only [Bool.or_eq_true, decide_eq_true_eq] at h
  rcases h with (((((h | h) | h) | h) | h) | h) | h <;> subst h <;> decide

theorem toLower_of_not_upper (c : Char) (h : c.isUpper = false) : c.toLower = c := by
  unfold Char.toLower
  rw [if_neg]
  intro hc
  unfold Char.isUpper at h
  obtain ⟨h1, h2⟩ := hc
  simp only [Char.toNat] at h1 h2
  rw [Bool.and_eq_false_iff] at h
  rcases h with h | h
  · rw [decide_eq_false_iff_not] at h
    exact h (by
      show (65 : UInt32) ≤ c.val
      rw [UInt32.le_def, BitVec.le_def]
      simpa using h1)
  · rw [decide_eq_false_iff_not] at h
    exact h (by
      show c.val ≤ (90 : UInt32)
      rw [UInt32.le_def, BitVec.le_def]
      simpa using h2)

theorem toLower_of_not_word (c : Char) (h : isWordChar c = false) : c.toLower = c := by
  apply toLower_of_not_upper
  unfold isWordChar Char.isAlphanum Char.isAlpha at h
  simp only [Bool.or_eq_false_iff] at h
  exact h.1.1.1

theorem flatten_runStep (c : Char) (acc : List Str) :
    (runStep c acc).flatten = c :: acc.flatten := by
  unfold runStep
  match acc with
  | [] => simp
  | [] :: rs => simp
  | (d :: r) :: rs => by_cases h : isWordChar c = isWordChar d <;> simp [h]

theorem runs_flatten (s : Str) : (runs s).flatten = s := by
  induction s with
  | nil => rfl
  | cons c rest ih =>
    show (runStep c (runs rest)).flatten = c :: rest
    rw [flatten_runStep, ih]

theorem ne_nil_of_mem_runStep (c : Char) (acc : List Str)
    (hacc : ∀ r ∈ acc, r ≠ []) : ∀ r ∈ runStep c acc, r ≠ [] := by
  match acc with
  | [] =>
    intro r hr
    simp only [runStep, List.mem_cons, List.not_mem_nil, or_false] at hr
    subst hr; simp
  | [] :: rs =>
    intro r hr
    simp only [runStep, List.mem_cons] at hr
    rcases hr with h | h
    · subst h; simp
    · exact hacc r (List.mem_cons_of_mem _ h)
  | (d :: t) :: rs =>
    intro r hr
    simp only [runStep] at hr
    by_cases h : isWordChar c = isWordChar d
    · rw [if_pos h] at hr
      simp only [List.mem_cons] at hr
      rcases hr with h' | h'
      · subst h'; simp
      · exact hacc r (List.mem_cons_of_mem _ h')
    · rw [if_neg h] at hr
      simp only [List.mem_cons] at hr
      rcases hr with h' | h' | h'
      · subst h'; simp
      · subst h'; simp
      · exact hacc r (List.mem_cons_of_mem _ h')

theorem ne_nil_of_mem_runs (s : Str) : ∀ r ∈ runs s, r ≠ [] := by
  induction s with
  | nil => intro r hr; cases hr
  | cons c rest ih => exact ne_nil_of_mem_runStep c (runs rest) ih

end VLF

namespace VLF

/-- A structurally valid run decomposition: runs are nonempty and
status-uniform, and adjacent runs alternate status. -/
def ValidRuns (L : List Str) : Prop :=
  (∀ r ∈ L, r ≠ [] ∧ ∀ c ∈ r, isWordChar c = isWordRun r) ∧
    L.Chain' (fun a b => isWordRun a ≠ isWordRun b)

theorem runs_valid (s : Str) : ValidRuns (runs s) := by
  induction s with
  | nil => exact ⟨fun r hr => absurd hr (List.not_mem_nil r), by simp [runs]⟩
  | cons c rest ih =>
    obtain ⟨huni, hch⟩ := ih
    show ValidRuns (runStep c (runs rest))
    match hr : runs rest with
    | [] =>
      refine ⟨?_, by simp [runStep]⟩
      intro r hr2
      simp only [runStep, List.mem_cons, List.not_mem_nil, or_false] at hr2
      subst hr2
      exact ⟨by simp, by intro x hx; simp at hx; subst hx; rfl⟩
    | [] :: rs =>
      exact absurd rfl ((huni [] (by rw [hr]; exact List.mem_cons_self _ _)).1)
    | (e :: t) :: rs =>
      rw [hr] at huni hch
      by_cases hst : isWordChar c = isWordChar e
      · refine ⟨?_, ?_⟩
        · intro r hr2
          simp only [runStep, if_pos hst, List.mem_cons] at hr2
          rcases hr2 with h | h
          · subst h
            have hu := (huni (e :: t) (by simp)).2
            refine ⟨by simp, ?_⟩
            intro x hx
            simp only [List.mem_cons] at hx
            show isWordChar x = isWordChar c
            rcases hx with h | h
            · subst h; rfl
            · have := hu x (List.mem_cons.mpr h)
              simp only [isWordRun] at this
              rw [this, hst]
          · exact huni r (List.mem_cons_of_mem _ h)
        · simp only [runStep, if_pos hst]
          have heq : isWordRun (c :: e :: t) = isWordRun (e :: t) := by
            simp only [isWordRun]; exact hst
          rcases rs with _ | ⟨r2, rs2⟩
          · simp
          · rw [List.chain'_cons] at hch ⊢
            exact ⟨heq ▸ hch.1, hch.2⟩
      · refine ⟨?_, ?_⟩
        · intro r hr2
          simp only [runStep, if_neg hst, List.mem_cons] at hr2
          rcases hr2 with h | h
          · subst h
            exact ⟨by simp, by intro x hx; simp at hx; subst hx; rfl⟩
          · rcases h with h | h
            · subst h; exact huni (e :: t) (List.mem_cons_self _ _)
            · exact huni r (List.mem_cons_of_mem _ h)
        · simp only [runStep, if_neg hst]
          rw [List.chain'_cons]
          exact ⟨by simpa [isWordRun] using hst, hch⟩

theorem runs_head (s : Str) (c : Char) (rest : Str) (h : s = c :: rest) :
    ∃ t rs, runs s = (c :: t) :: rs := by
  have hfl := runs_flatten s
  match hr : runs s with
  | [] => rw [hr] at hfl; simp [h] at hfl
  | [] :: rs => exact absurd rfl ((ne_nil_of_mem_runs s [] (by rw [hr]; simp)))
  | (e :: t) :: rs =>
    rw [hr] at hfl
    simp only [List.flatten_cons, List.cons_append, h] at hfl
    injection hfl with h1 _
    exact ⟨t, rs, by rw [h1]⟩

end VLF

namespace VLF

theorem runs_of_uniform (r : Str) (hne : r ≠ [])
    (huni : ∀ c ∈ r, isWordChar c = isWordRun r) : runs r = [r] := by
  induction r with
  | nil => exact absurd rfl hne
  | cons c rest ih =>
    match rest, huni with
    | [], _ => simp [runs, runStep]
    | d :: t, huni =>
      have hd : isWordChar d = isWordChar c := huni d (by simp)
      have ht : runs (d :: t) = [d :: t] := by
        apply ih (by simp)
        intro x hx
        rw [huni x (List.mem_cons_of_mem _ hx)]
        simp only [isWordRun]
        exact hd.symm
      show runStep c (runs (d :: t)) = _
      rw [ht]
      simp [runStep, hd]

theorem runStep_append (c : Char) (A B : List Str) (h : A ≠ []) :
    runStep c (A ++ B) = runStep c A ++ B := by
  match A with
  | [] => exact absurd rfl h
  | [] :: rs => simp [runStep]
  | (d :: t) :: rs =>
    by_cases hst : isWordChar c = isWordChar d <;> simp [runStep, hst]

theorem runs_append (a b : Str)
    (h : a = [] ∨ b = [] ∨
      (∃ la ∈ a.getLast?, ∃ hd ∈ b.head?, isWordChar la ≠ isWordChar hd)) :
    runs (a ++ b) = runs a ++ runs b := by
  induction a with
  | nil => simp [runs]
  | cons c a2 ih =>
    show runStep c (runs (a2 ++ b)) = runStep c (runs a2) ++ runs b
    match a2 with
    | [] =>
      show runStep c (runs b) = runStep c [] ++ runs b
      match hb : b with
      | [] => simp [runs, runStep]
      | d :: b2 =>
        obtain ⟨t, rs, hr⟩ := runs_head (d :: b2) d b2 rfl
        rw [hr]
        have hst : isWordChar c ≠ isWordChar d := by
          rcases h with h | h | h
          · cases h
          · exact absurd h (by simp)
          · obtain ⟨la, hla, hd2, hhd, hne⟩ := h
            simp only [List.getLast?_singleton, Option.mem_def, Option.some.injEq] at hla
            simp only [List.head?_cons, Option.mem_def, Option.some.injEq] at hhd
            subst hla
            subst hhd
            exact hne
        simp [runStep, hst]
    | e :: a3 =>
      have ih2 := ih (by
        rcases h with h | h | h
        · cases h
        · exact Or.inr (Or.inl h)
        · refine Or.inr (Or.inr ?_)
          obtain ⟨la, hla, hd, hhd, hne⟩ := h
          exact ⟨la, by rw [List.getLast?_cons_cons] at hla; exact hla, hd, hhd, hne⟩)
      rw [ih2]
      obtain ⟨t, rs, hr⟩ := runs_head (e :: a3) e a3 rfl
      rw [hr]
      exact runStep_append c ((e :: t) :: rs) (runs b) (by simp)

theorem tokens_append (a b : Str)
    (h : a = [] ∨ b = [] ∨
      (∃ la ∈ a.getLast?, ∃ hd ∈ b.head?, isWordChar la ≠ isWordChar hd)) :
    tokens (a ++ b) = tokens a ++ tokens b := by
  unfold tokens
  rw [runs_append a b h, List.filter_append]

theorem runs_flatten_valid (L : List Str) (h : ValidRuns L) : runs L.flatten = L := by
  induction L with
  | nil => rfl
  | cons r L2 ih =>
    obtain ⟨huni, hch⟩ := h
    have hrne : r ≠ [] := (huni r (List.mem_cons_self _ _)).1
    have hruni := (huni r (List.mem_cons_self _ _)).2
    have hvalid2 : ValidRuns L2 :=
      ⟨fun x hx => huni x (List.mem_cons_of_mem _ hx), (List.chain'_cons'.mp hch).2⟩
    show runs (r ++ L2.flatten) = r :: L2
    rw [runs_append r L2.flatten ?bound]
    · rw [runs_of_uniform r hrne hruni, ih hvalid2]
      rfl
    case bound =>
      match hL2 : L2 with
      | [] => exact Or.inr (Or.inl (by simp))
      | r2 :: L3 =>
        refine Or.inr (Or.inr ?_)
        have hr2ne : r2 ≠ [] := (huni r2 (by simp [hL2])).1
        match hr2 : r2, hr2ne with
        | d :: t2, _ =>
          refine ⟨r.getLast hrne, List.getLast?_eq_getLast r hrne ▸ rfl, d, ?_, ?_⟩
          · show d ∈ ((d :: t2) :: L3).flatten.head?
            simp
          · have hlast : isWordChar (r.getLast hrne) = isWordRun r :=
              hruni _ (List.getLast_mem hrne)
            have hhd : isWordChar d = isWordRun (d :: t2) := by simp [isWordRun]
            have hne : isWordRun r ≠ isWordRun (d :: t2) := by
              rw [List.chain'_cons] at hch
              exact hr2 ▸ hch.1
            rw [hlast, hhd]
            exact hne

end VLF

namespace VLF

theorem tokens_of_uniform_word (r : Str) (hne : r ≠ [])
    (hw : ∀ c ∈ r, isWordChar c = true) : tokens r = [r] := by
  have hrun : isWordRun r = true := by
    match r, hne with
    | c :: t, _ => exact hw c (by simp)
  unfold tokens
  rw [runs_of_uniform r hne (fun c hc => by rw [hw c hc, hrun])]
  simp [hrun]

theorem tokens_of_uniform_nonword (r : Str) (hne : r ≠ [])
    (hw : ∀ c ∈ r, isWordChar c = false) : tokens r = [] := by
  have hrun : isWordRun r = false := by
    match r, hne with
    | c :: t, _ => exact hw c (by simp)
  unfold tokens
  rw [runs_of_uniform r hne (fun c hc => by rw [hw c hc, hrun])]
  simp [hrun]

theorem mem_of_mem_mem_runs (s : Str) (r : Str) (hr : r ∈ runs s) (c : Char)
    (hc : c ∈ r) : c ∈ s := by
  rw [← runs_flatten s]
  exact List.mem_flatten.mpr ⟨r, hr, hc⟩

theorem tokens_eq_nil (s : Str) (h : ∀ c ∈ s, isWordChar c = false) :
    tokens s = [] := by
  unfold tokens
  rw [List.filter_eq_nil_iff]
  intro r hr
  obtain ⟨hne, -⟩ := (runs_valid s).1 r hr
  match r, hne with
  | c :: t, _ =>
    show ¬ (isWordRun (c :: t) = true)
    simp only [isWordRun]
    rw [h c (mem_of_mem_mem_runs s _ hr c (by simp))]
    simp

theorem subWord_eq_self (key repl s : Str)
    (h : lower key ∉ (tokens s).map lower) : subWord key repl s = s := by
  unfold subWord
  have : ∀ r ∈ runs s,
      (if isWordRun r && lower r == lower key then repl else r) = r := by
    intro r hr
    by_cases hw : isWordRun r = true
    · have hmem : r ∈ tokens s := List.mem_filter.mpr ⟨hr, hw⟩
      have : lower r ≠ lower key := by
        intro heq
        exact h (heq ▸ List.mem_map_of_mem lower hmem)
      simp [this, hw]
    · simp only [Bool.not_eq_true] at hw
      simp [hw]
  rw [List.map_congr_left this]
  show (List.map id (runs s)).flatten = s
  rw [List.map_id, runs_flatten]

end VLF

namespace VLF

theorem tokens_cons_nonword (c : Char) (s : Str) (h : isWordChar c = false) :
    tokens (c :: s) = tokens s := by
  unfold tokens
  show List.filter isWordRun (runStep c (runs s)) = _
  match hr : runs s with
  | [] => simp [runStep, isWordRun, h]
  | [] :: rs => exact absurd rfl (ne_nil_of_mem_runs s [] (by rw [hr]; simp))
  | (e :: t) :: rs =>
    by_cases hst : isWordChar c = isWordChar e
    · have he : isWordChar e = false := hst ▸ h
      simp [runStep, hst, isWordRun, h, he]
    · have he : isWordChar e = true := by
        cases h2 : isWordChar e
        · exact absurd (h.trans h2.symm) hst
        · rfl
      simp [runStep, hst, isWordRun, h, he]

theorem tokens_nonword_append (w b : Str) (h : ∀ c ∈ w, isWordChar c = false) :
    tokens (w ++ b) = tokens b := by
  induction w with
  | nil => rfl
  | cons c w2 ih =>
    rw [List.cons_append, tokens_cons_nonword c _ (h c (by simp))]
    exact ih (fun x hx => h x (List.mem_cons_of_mem _ hx))

theorem tokens_word_append (w b : Str) (hne : w ≠ [])
    (hw : ∀ c ∈ w, isWordChar c = true)
    (hb : b = [] ∨ ∃ hd ∈ b.head?, isWordChar hd = false) :
    tokens (w ++ b) = w :: tokens b := by
  have hrun : isWordRun w = true := by
    match w, hne with
    | c :: t, _ => exact hw c (by simp)
  unfold tokens
  rw [runs_append w b ?bound]
  · rw [runs_of_uniform w hne (fun c hc => by rw [hw c hc, hrun])]
    simp [hrun]
  case bound =>
    rcases hb with hb | ⟨hd, hhd, hwd⟩
    · exact Or.inr (Or.inl hb)
    · refine Or.inr (Or.inr ⟨w.getLast hne, List.getLast?_eq_getLast w hne ▸ rfl, hd, hhd, ?_⟩)
      rw [hw _ (List.getLast_mem hne), hwd]
      simp

theorem tokens_flatten_append (M : List Str) (hM : ValidRuns M) (X : Str)
    (hX : X = [] ∨ ∃ hd ∈ X.head?, isWordChar hd = false) :
    tokens (M.flatten ++ X) = tokens M.flatten ++ tokens X := by
  induction M with
  | nil => simp [tokens, runs]
  | cons r M2 ih =>
    obtain ⟨huni, hch⟩ := hM
    have hrne : r ≠ [] := (huni r (List.mem_cons_self _ _)).1
    have hvalid2 : ValidRuns M2 :=
      ⟨fun x hx => huni x (List.mem_cons_of_mem _ hx), (List.chain'_cons'.mp hch).2⟩
    have ih2 := ih hvalid2
    show tokens ((r ++ M2.flatten) ++ X) = tokens (r ++ M2.flatten) ++ tokens X
    rw [List.append_assoc]
    by_cases hword : isWordRun r = true
    · have hwchars : ∀ c ∈ r, isWordChar c = true :=
        fun c hc => (huni r (List.mem_cons_self _ _)).2 c hc |>.trans hword
      have hM2head : M2.flatten ++ X = [] ∨
          ∃ hd ∈ (M2.flatten ++ X).head?, isWordChar hd = false := by
        match hM2 : M2 with
        | [] =>
          simp only [List.flatten_nil, List.nil_append]
          exact hX
        | r2 :: M3 =>
          have hr2ne : r2 ≠ [] := (huni r2 (by simp [hM2])).1
          have hr2nw : isWordRun r2 = false := by
            rw [List.chain'_cons] at hch
            have hne2 := hch.1
            rw [hword] at hne2
            cases h2 : isWordRun r2
            · rfl
            · exact absurd h2.symm hne2
          match r2, hr2ne with
          | d :: t2, _ =>
            refine Or.inr ⟨d, ?_, ?_⟩
            · simp
            · have := (huni (d :: t2) (by simp [hM2])).2 d (by simp)
              rw [this, hr2nw]
      have hM2head2 : M2.flatten = [] ∨
          ∃ hd ∈ M2.flatten.head?, isWordChar hd = false := by
        match hM2 : M2 with
        | [] => exact Or.inl (by simp)
        | r2 :: M3 =>
          have hr2ne : r2 ≠ [] := (huni r2 (by simp [hM2])).1
          have hr2nw : isWordRun r2 = false := by
            rw [List.chain'_cons] at hch
            have hne2 := hch.1
            rw [hword] at hne2
            cases h2 : isWordRun r2
            · rfl
            · exact absurd h2.symm hne2
          match r2, hr2ne with
          | d :: t2, _ =>
            refine Or.inr ⟨d, ?_, ?_⟩
            · simp
            · have := (huni (d :: t2) (by simp [hM2])).2 d (by simp)
              rw [this, hr2nw]
      rw [tokens_word_append r _ hrne hwchars hM2head]
      rw [tokens_word_append r _ hrne hwchars hM2head2]
      rw [ih2]
      rfl
    · have hnwchars : ∀ c ∈ r, isWordChar c = false := by
        intro c hc
        rw [(huni r (List.mem_cons_self _ _)).2 c hc]
        simpa using hword
      rw [tokens_nonword_append r _ hnwchars, tokens_nonword_append r _ hnwchars]
      exact ih2

end VLF

namespace VLF

theorem flatten_map_subRun_head (key repl : Str) (L : List Str)
    (huni : ∀ r ∈ L, r ≠ [] ∧ ∀ c ∈ r, isWordChar c = isWordRun r)
    (hnw : ∀ hd, L.head? = some hd → isWordRun hd = false) :
    (L.map (subRun key repl)).flatten = [] ∨
      ∃ hd ∈ (L.map (subRun key repl)).flatten.head?, isWordChar hd = false := by
  match L with
  | [] => exact Or.inl rfl
  | r :: L2 =>
    have hrne : r ≠ [] := (huni r (List.mem_cons_self _ _)).1
    have hrnw : isWordRun r = false := hnw r rfl
    have hfr : subRun key repl r = r := by
      unfold subRun
      simp [hrnw]
    match r, hrne with
    | d :: t, _ =>
      refine Or.inr ⟨d, ?_, ?_⟩
      · simp only [List.map_cons, List.flatten_cons, hfr]
        simp
      · rw [(huni (d :: t) (List.mem_cons_self _ _)).2 d (by simp), hrnw]

theorem tokens_mapRuns_mem (key repl : Str) (L : List Str) (hL : ValidRuns L) :
    ∀ t ∈ tokens ((L.map (subRun key repl)).flatten),
      t ∈ tokens repl ∨ (t ∈ L.filter isWordRun ∧ lower t ≠ lower key) := by
  induction L with
  | nil => simp [tokens, runs]
  | cons r L2 ih =>
    obtain ⟨huni, hch⟩ := hL
    have hrne : r ≠ [] := (huni r (List.mem_cons_self _ _)).1
    have hruni := (huni r (List.mem_cons_self _ _)).2
    have hvalid2 : ValidRuns L2 :=
      ⟨fun x hx => huni x (List.mem_cons_of_mem _ hx), (List.chain'_cons'.mp hch).2⟩
    have ih2 := ih hvalid2
    intro t ht
    simp only [List.map_cons, List.flatten_cons] at ht
    by_cases hword : isWordRun r = true
    · have hXhead : (L2.map (subRun key repl)).flatten = [] ∨
          ∃ hd ∈ (L2.map (subRun key repl)).flatten.head?, isWordChar hd = false := by
        apply flatten_map_subRun_head key repl L2 hvalid2.1
        intro hd hhd
        match L2, hch, hhd with
        | r2 :: L3, hch, hhd =>
          have he : r2 = hd := by simpa using hhd
          subst he
          rw [List.chain'_cons] at hch
          have hne2 := hch.1
          rw [hword] at hne2
          cases h2 : isWordRun r2
          · rfl
          · exact absurd h2.symm hne2
      have hwchars : ∀ c ∈ r, isWordChar c = true :=
        fun c hc => (hruni c hc).trans hword
      by_cases hkey : lower r == lower key
      · rw [show subRun key repl r = repl from by unfold subRun; simp [hword, hkey]] at ht
        have happ := tokens_flatten_append (runs repl) (runs_valid repl) _ hXhead
        rw [runs_flatten repl] at happ
        rw [happ] at ht
        rcases List.mem_append.mp ht with h | h
        · exact Or.inl h
        · rcases ih2 t h with h2 | ⟨h2, h3⟩
          · exact Or.inl h2
          · exact Or.inr ⟨by
              rw [List.filter_cons_of_pos hword]
              exact List.mem_cons_of_mem _ h2, h3⟩
      · rw [show subRun key repl r = r from by unfold subRun; simp [hkey]] at ht
        rw [tokens_word_append r _ hrne hwchars hXhead] at ht
        rcases List.mem_cons.mp ht with h | h
        · subst h
          refine Or.inr ⟨?_, ?_⟩
          · rw [List.filter_cons_of_pos hword]
            exact List.mem_cons_self _ _
          · simpa using hkey
        · rcases ih2 t h with h2 | ⟨h2, h3⟩
          · exact Or.inl h2
          · exact Or.inr ⟨by
              rw [List.filter_cons_of_pos hword]
              exact List.mem_cons_of_mem _ h2, h3⟩
    · have hnwchars : ∀ c ∈ r, isWordChar c = false := by
        intro c hc
        rw [hruni c hc]
        simpa using hword
      rw [show subRun key repl r = r from by
        unfold subRun
        simp only [Bool.not_eq_true] at hword
        simp [hword]] at ht
      rw [tokens_nonword_append r _ hnwchars] at ht
      rcases ih2 t ht with h2 | ⟨h2, h3⟩
      · exact Or.inl h2
      · refine Or.inr ⟨?_, h3⟩
        rw [List.filter_cons_of_neg (by simpa using hword)]
        exact h2

theorem tokens_subWord_mem (key repl s : Str) :
    ∀ t ∈ tokens (subWord key repl s),
      t ∈ tokens repl ∨ (t ∈ tokens s ∧ lower t ≠ lower key) := by
  rw [subWord_eq_map_subRun]
  exact tokens_mapRuns_mem key repl (runs s) (runs_valid s)

end VLF

namespace VLF

theorem subWord_tokens_kills (key repl s : Str)
    (hrepl : lower key ∉ (tokens repl).map lower) :
    lower key ∉ (tokens (subWord key repl s)).map lower := by
  intro hmem
  obtain ⟨t, ht, hlow⟩ := List.mem_map.mp hmem
  rcases tokens_subWord_mem key repl s t ht with h | ⟨-, hne⟩
  · exact hrepl (hlow ▸ List.mem_map_of_mem lower h)
  · exact hne hlow

theorem subWord_tokens_preserves (key2 key repl s : Str)
    (h : lower key2 ∉ (tokens s).map lower)
    (hrepl : lower key2 ∉ (tokens repl).map lower) :
    lower key2 ∉ (tokens (subWord key repl s)).map lower := by
  intro hmem
  obtain ⟨t, ht, hlow⟩ := List.mem_map.mp hmem
  rcases tokens_subWord_mem key repl s t ht with h2 | ⟨h2, -⟩
  · exact hrepl (hlow ▸ List.mem_map_of_mem lower h2)
  · exact h (hlow ▸ List.mem_map_of_mem lower h2)

theorem foldl_subWord_preserves (ps : List (Str × Str)) (s : Str) (key2 : Str)
    (h : lower key2 ∉ (tokens s).map lower)
    (hrepl : ∀ p ∈ ps, lower key2 ∉ (tokens p.2).map lower) :
    lower key2 ∉
      (tokens (ps.foldl (fun acc kv => subWord kv.1 kv.2 acc) s)).map lower := by
  induction ps generalizing s with
  | nil => exact h
  | cons kv ps2 ih =>
    exact ih (subWord kv.1 kv.2 s)
      (subWord_tokens_preserves key2 kv.1 kv.2 s h
        (hrepl kv (List.mem_cons_self _ _)))
      (fun p hp => hrepl p (List.mem_cons_of_mem _ hp))

theorem foldl_subWord_keyfree (ps : List (Str × Str)) (s : Str)
    (hrepl : ∀ p ∈ ps, ∀ q ∈ ps, lower q.1 ∉ (tokens p.2).map lower) :
    ∀ p ∈ ps, lower p.1 ∉
      (tokens (ps.foldl (fun acc kv => subWord kv.1 kv.2 acc) s)).map lower := by
  induction ps generalizing s with
  | nil => intro p hp; cases hp
  | cons kv ps2 ih =>
    intro p hp
    rcases List.mem_cons.mp hp with h | h
    · subst h
      show lower p.1 ∉ (tokens (ps2.foldl _ (subWord p.1 p.2 s))).map lower
      apply foldl_subWord_preserves
      · exact subWord_tokens_kills p.1 p.2 s
          (hrepl p (List.mem_cons_self _ _) p (List.mem_cons_self _ _))
      · intro q hq
        exact hrepl q (List.mem_cons_of_mem _ hq) p (List.mem_cons_self _ _)
    · exact ih (subWord kv.1 kv.2 s)
        (fun a ha b hb =>
          hrepl a (List.mem_cons_of_mem _ ha) b (List.mem_cons_of_mem _ hb))
        p h

theorem foldl_subWord_id_of_keyfree (ps : List (Str × Str)) (t : Str)
    (h : ∀ p ∈ ps, lower p.1 ∉ (tokens t).map lower) :
    ps.foldl (fun acc kv => subWord kv.1 kv.2 acc) t = t := by
  induction ps with
  | nil => rfl
  | cons kv ps2 ih =>
    show ps2.foldl _ (subWord kv.1 kv.2 t) = t
    rw [subWord_eq_self kv.1 kv.2 t (h kv (List.mem_cons_self _ _))]
    exact ih (fun p hp => h p (List.mem_cons_of_mem _ hp))

theorem mathReplacements_mutual_free :
    ∀ p ∈ mathReplacements, ∀ q ∈ mathReplacements,
      lower q.1 ∉ (tokens p.2).map lower := by decide

theorem normalizeOperators_keyfree (s : Str) :
    ∀ p ∈ mathReplacements, lower p.1 ∉ (tokens (normalizeOperators s)).map lower :=
  foldl_subWord_keyfree mathReplacements s mathReplacements_mutual_free

/-- C7: `normalize_operators_only` is idempotent — shown here for every
string, hence in particular for those containing only the fixed rewrite
vocabulary: one application removes every whole-word occurrence of a
rewrite keyword and never introduces one (no replacement text contains any
keyword as a word), so the second application finds nothing to rewrite. -/
theorem C7_normalize_operators_only_idempotent (s : Str) :
    normalize_operators_only (normalize_operators_only s) =
      normalize_operators_only s :=
  foldl_subWord_id_of_keyfree mathReplacements (normalizeOperators s)
    (normalizeOperators_keyfree s)

end VLF

namespace VLF

/-- C3: `get_lemma_by_name` on a name matching no loaded lemma returns the
absent value (`none`), without error. -/
theorem C3_get_lemma_by_name_absent (S : LemmaSearcher) (name : Str)
    (h : ∀ l ∈ S.lemmas, l.name ≠ name) : get_lemma_by_name S name = none := by
  unfold get_lemma_by_name
  rw [List.find?_eq_none]
  intro l hl
  simpa using h l hl

theorem C3_witness :
    get_lemma_by_name kwEngine "nonexistent".toList = none :=
  C3_get_lemma_by_name_absent kwEngine "nonexistent".toList (by decide)

/-- C2: `find_similar_lemmas` never returns a result named like the queried
lemma (self-exclusion), and on a name absent from the index it returns the
empty sequence rather than raising. -/
theorem C2_find_similar_self_exclusion (S : LemmaSearcher) (name : Str) (k : Nat) :
    (∀ p ∈ find_similar_lemmas S name k, p.1.name ≠ name) ∧
    (get_lemma_by_name S name = none → find_similar_lemmas S name k = []) := by
  constructor
  · intro p hp
    unfold find_similar_lemmas at hp
    match h : get_lemma_by_name S name with
    | none => rw [h] at hp; cases hp
    | some l =>
      rw [h] at hp
      have hp2 := List.take_subset k _ hp
      have := (List.mem_filter.mp hp2).2
      exact of_decide_eq_true this
  · intro h
    unfold find_similar_lemmas
    rw [h]

theorem C2_witness :
    ((mkLemma "lemma_mul_comm".toList [] "fn lemma_mul_comm(x: int, y: int)".toList
        [] ["x * y == y * x".toList], (83/450 : ℚ)).1.name ≠ "lemma_mod_bound".toList) ∧
    find_similar_lemmas embEngine "missing_lemma".toList 3 = [] :=
  ⟨(C2_find_similar_self_exclusion embEngine "lemma_mod_bound".toList 2).1 _ (by decide),
   (C2_find_similar_self_exclusion embEngine "missing_lemma".toList 3).2 (by decide)⟩

/-- C9: a query with no word characters (in particular the empty string)
tokenizes to the empty term set, every lemma scores zero, zero scores are
discarded, so `keyword_search` returns the empty list. -/
theorem C9_keyword_search_no_word_chars (S : LemmaSearcher) (query : Str) (k : Nat)
    (h : ∀ c ∈ query, isWordChar c = false) : keyword_search S query k = [] := by
  have htok : tokens (lower query) = [] := by
    apply tokens_eq_nil
    intro c hc
    obtain ⟨d, hd, hdc⟩ := List.mem_map.mp hc
    rw [← hdc, toLower_of_not_word d (h d hd)]
    exact h d hd
  have hterm : termSet query = [] := by
    unfold termSet
    rw [htok]
    rfl
  have hfm : (S.lemmas.filterMap fun l =>
      let score := keywordScore S (termSet query) l
      if score > 0 then some (l, score) else none) = [] := by
    rw [List.filterMap_eq_nil_iff]
    intro l hl
    have hscore : keywordScore S (termSet query) l = 0 := by
      unfold keywordScore
      rw [hterm]
      simp
    simp [hscore]
  show List.take k (sortByScore (S.lemmas.filterMap fun l =>
      let score := keywordScore S (termSet query) l
      if score > 0 then some (l, score) else none)) = []
  rw [hfm]
  simp [sortByScore]

theorem C9_witness : keyword_search kwEngine " % * ".toList 5 = [] :=
  C9_keyword_search_no_word_chars kwEngine " % * ".toList 5 (by decide)

/-- The one-lemma engine of the C1 counterexample: a lemma whose name is the
rewrite keyword `times`, no embeddings. -/
def timesEngine : LemmaSearcher :=
  { lemmas := [mkLemma "times".toList [] [] [] []], embeddings := none }

/-- C1 fails as stated: for the keyword-only engine, `search` runs
`keyword_search` on the *normalized* query, and normalization rewrites
`times` to `*`, which tokenizes to nothing — so `search` returns `[]` while
`keyword_search` on the raw query finds the lemma named `times`. -/
theorem C1_counterexample :
    search timesEngine "times".toList 10 ≠
      keyword_search timesEngine "times".toList 10 := by decide

/-- C1 (amended): for an engine without embeddings, `search(q, k)` equals
`keyword_search(normalize(q), k)`; in particular the two sides of the claim
coincide whenever `normalize` leaves the query unchanged. -/
theorem C1_fallback_keyword_on_normalized (S : LemmaSearcher) (q : Str) (k : Nat)
    (h : S.embeddings = none) :
    search S q k = keyword_search S (normalize q) k ∧
    (normalize q = q → search S q k = keyword_search S q k) := by
  have hmain : search S q k = keyword_search S (normalize q) k := by
    unfold search fuzzy_search
    rw [h]
  exact ⟨hmain, fun hq => by rw [hmain, hq]⟩

theorem C1_witness :
    search kwEngine "mod bound".toList 10 =
      keyword_search kwEngine "mod bound".toList 10 :=
  (C1_fallback_keyword_on_normalized kwEngine "mod bound".toList 10 rfl).2 (by decide)

/-- C4 fails as stated: the trailing variable `c` is not followed by an
operator, comparator or `if`/`then`, so the variable pattern does not treat
it as bound and it is not renamed. -/
theorem C4_counterexample :
    normalize "a * b <= c".toList ≠ "var1 * var2 <= var3".toList := by decide

/-- C4 (amended): `normalize` renames exactly the bound single-letter
variables — those followed by an operator/comparator or `if`/`then` — in
alphabetical order; a variable not in bound position (the trailing `c`/`z`)
is left unchanged, so the two example queries normalize to
`var1 * var2 <= c` and `var1 * var2 <= z` (equal except at the unrenamed
trailing variable), and a bijective renaming that changes the alphabetical
order of the bound variables permutes the `varK` assignment. -/
theorem C4_variable_renaming :
    normalize "a * b <= c".toList = "var1 * var2 <= c".toList ∧
    normalize "x * y <= z".toList = "var1 * var2 <= z".toList ∧
    normalize "b * a <= c".toList = "var2 * var1 <= c".toList := by decide

end VLF

namespace VLF

theorem dedupFirst_go_prefix (l : List Str) (acc : List Str) :
    ∃ t, l.foldl (fun acc v => if acc.contains v then acc else acc ++ [v]) acc =
      acc ++ t := by
  induction l generalizing acc with
  | nil => exact ⟨[], by simp⟩
  | cons v l2 ih =>
    show ∃ t, l2.foldl _ (if acc.contains v then acc else acc ++ [v]) = acc ++ t
    by_cases h : acc.contains v
    · rw [if_pos h]
      exact ih acc
    · rw [if_neg h]
      obtain ⟨t, ht⟩ := ih (acc ++ [v])
      exact ⟨[v] ++ t, by rw [ht, List.append_assoc]⟩

theorem dedupFirst_go_nodup (l : List Str) (acc : List Str) (hacc : acc.Nodup) :
    (l.foldl (fun acc v => if acc.contains v then acc else acc ++ [v]) acc).Nodup := by
  induction l generalizing acc with
  | nil => exact hacc
  | cons v l2 ih =>
    show (l2.foldl _ (if acc.contains v then acc else acc ++ [v])).Nodup
    by_cases h : acc.contains v
    · rw [if_pos h]
      exact ih acc hacc
    · rw [if_neg h]
      apply ih
      rw [List.nodup_append]
      refine ⟨hacc, List.nodup_singleton v, ?_⟩
      intro x hx hx2
      rw [List.mem_singleton] at hx2
      subst hx2
      have hnot : ¬ (x ∈ acc) := by simpa using h
      exact hnot hx
  
theorem dedupFirst_go_mem (l : List Str) (acc : List Str) (x : Str)
    (hx : x ∈ acc ∨ x ∈ l) :
    x ∈ l.foldl (fun acc v => if acc.contains v then acc else acc ++ [v]) acc := by
  induction l generalizing acc with
  | nil => simpa using hx
  | cons v l2 ih =>
    show x ∈ l2.foldl _ (if acc.contains v then acc else acc ++ [v])
    by_cases h : acc.contains v
    · rw [if_pos h]
      apply ih
      rcases hx with hx | hx
      · exact Or.inl hx
      · rcases List.mem_cons.mp hx with hx | hx
        · subst hx
          exact Or.inl (by simpa using h)
        · exact Or.inr hx
    · rw [if_neg h]
      apply ih
      rcases hx with hx | hx
      · exact Or.inl (List.mem_append_left _ hx)
      · rcases List.mem_cons.mp hx with hx | hx
        · subst hx
          exact Or.inl (by simp)
        · exact Or.inr hx

theorem dedupFirst_cons (v : Str) (l : List Str) :
    ∃ t, dedupFirst (v :: l) = v :: t := by
  unfold dedupFirst
  show ∃ t, l.foldl _ (if List.contains [] v then [] else [] ++ [v]) = v :: t
  rw [if_neg (by simp)]
  obtain ⟨t, ht⟩ := dedupFirst_go_prefix l [v]
  exact ⟨t, by simpa using ht⟩

/-- C8: `generate_variations` always contains the original query, returns
it first, and removes duplicates (preserving first-seen order), so the
returned sequence has no duplicate elements. -/
theorem C8_generate_variations_original_first (q : Str) (hq : q ≠ []) :
    q ∈ generate_variations q ∧ (generate_variations q).head? = some q ∧
      (generate_variations q).Nodup := by
  obtain ⟨rest, hrest⟩ : ∃ rest, generate_variations q = dedupFirst (q :: rest) :=
    ⟨_, rfl⟩
  obtain ⟨t, ht⟩ := dedupFirst_cons q rest
  refine ⟨?_, ?_, ?_⟩
  · rw [hrest, ht]
    exact List.mem_cons_self _ _
  · rw [hrest, ht]
    rfl
  · rw [hrest]
    exact dedupFirst_go_nodup (q :: rest) [] (List.nodup_nil)

theorem C8_witness :
    ("x mod 5 = 0".toList ∈ generate_variations "x mod 5 = 0".toList) ∧
      (generate_variations "x mod 5 = 0".toList).head? = some "x mod 5 = 0".toList ∧
      (generate_variations "x mod 5 = 0".toList).Nodup :=
  C8_generate_variations_original_first "x mod 5 = 0".toList (by decide)

end VLF

namespace VLF

theorem mem_keyword_search_results (S : LemmaSearcher) (q : Str) (k : Nat)
    (p : LemmaInfo × ℚ) (hp : p ∈ keyword_search S q k) :
    p ∈ S.lemmas.filterMap fun l =>
      let score := keywordScore S (termSet q) l
      if score > 0 then some (l, score) else none := by
  unfold keyword_search at hp
  have hp2 := List.take_subset k _ hp
  unfold sortByScore at hp2
  exact (List.perm_insertionSort _ _).mem_iff.mp hp2

theorem keyword_search_pos (S : LemmaSearcher) (q : Str) (k : Nat) :
    ∀ p ∈ keyword_search S q k, 0 < p.2 := by
  intro p hp
  have hp2 := mem_keyword_search_results S q k p hp
  obtain ⟨l, -, hl⟩ := List.mem_filterMap.mp hp2
  by_cases h : keywordScore S (termSet q) l > 0
  · simp only [h, if_true, Option.some.injEq] at hl
    rw [← hl]
    exact h
  · simp [h] at hl

theorem le_foldl_max (l : List ℚ) (a x : ℚ) (hx : x ∈ l ∨ x ≤ a) :
    x ≤ l.foldl max a := by
  induction l generalizing a with
  | nil => simpa using hx
  | cons b l2 ih =>
    show x ≤ l2.foldl max (max a b)
    apply ih
    rcases hx with hx | hx
    · rcases List.mem_cons.mp hx with hx | hx
      · exact Or.inr (hx ▸ le_max_right a b)
      · exact Or.inl hx
    · exact Or.inr (hx.trans (le_max_left a b))

theorem le_maxScore (results : List (LemmaInfo × ℚ)) (p : LemmaInfo × ℚ)
    (hp : p ∈ results) : p.2 ≤ maxScore results := by
  unfold maxScore
  match results, hp with
  | q :: rest, hp =>
    show p.2 ≤ (rest.map (·.2)).foldl max q.2
    apply le_foldl_max
    rcases List.mem_cons.mp hp with h | h
    · exact Or.inr (h ▸ le_rfl)
    · exact Or.inl (List.mem_map_of_mem (·.2) h)

theorem semantic_search_mem (S : LemmaSearcher) (sim : Str → Nat → ℚ)
    (hemb : S.embeddings = some sim) (q : Str) (k : Nat) :
    ∀ p ∈ semantic_search S q k, ∃ i, p.2 = sim q i := by
  intro p hp
  unfold semantic_search at hp
  rw [hemb] at hp
  have hp2 := List.take_subset k _ hp
  unfold sortByScore at hp2
  have hp3 := (List.perm_insertionSort _ _).mem_iff.mp hp2
  obtain ⟨il, -, hil⟩ := List.mem_map.mp hp3
  exact ⟨il.1, by rw [← hil]⟩

/-- Every value written by `dictSet` satisfies `P` when the existing values
and the new value do. -/
theorem dictSet_forall (P : LemmaInfo × ℚ → Prop) (d : List (Str × (LemmaInfo × ℚ)))
    (key : Str) (v : LemmaInfo × ℚ) (hd : ∀ kv ∈ d, P kv.2) (hv : P v) :
    ∀ kv ∈ dictSet d key v, P kv.2 := by
  intro kv hkv
  unfold dictSet at hkv
  by_cases h : d.any (fun kv => kv.1 == key)
  · rw [if_pos h] at hkv
    obtain ⟨kv2, hkv2, hmap⟩ := List.mem_map.mp hkv
    by_cases h2 : kv2.1 == key
    · rw [if_pos h2] at hmap
      rw [← hmap]
      exact hv
    · rw [if_neg h2] at hmap
      rw [← hmap]
      exact hd kv2 hkv2
  · rw [if_neg h] at hkv
    rcases List.mem_append.mp hkv with h2 | h2
    · exact hd kv h2
    · rw [List.mem_singleton] at h2
      rw [h2]
      exact hv

end VLF

namespace VLF

theorem dictSet_forall_key (P : Str → LemmaInfo × ℚ → Prop)
    (d : List (Str × (LemmaInfo × ℚ))) (key : Str) (v : LemmaInfo × ℚ)
    (hd : ∀ kv ∈ d, P kv.1 kv.2) (hv : P key v) :
    ∀ kv ∈ dictSet d key v, P kv.1 kv.2 := by
  intro kv hkv
  unfold dictSet at hkv
  by_cases h : d.any (fun kv => kv.1 == key)
  · rw [if_pos h] at hkv
    obtain ⟨kv2, hkv2, hmap⟩ := List.mem_map.mp hkv
    by_cases h2 : kv2.1 == key
    · rw [if_pos h2] at hmap
      rw [← hmap]
      exact hv
    · rw [if_neg h2] at hmap
      rw [← hmap]
      exact hd kv2 hkv2
  · rw [if_neg h] at hkv
    rcases List.mem_append.mp hkv with h2 | h2
    · exact hd kv h2
    · rw [List.mem_singleton] at h2
      rw [h2]
      exact hv

theorem semPass_bounds (w maxSem : ℚ) (semResults : List (LemmaInfo × ℚ))
    (hw0 : 0 ≤ w) (hw1 : w ≤ 1)
    (hsem : ∀ p ∈ semResults, 0 ≤ p.2 ∧ p.2 ≤ maxSem) :
    ∀ kv ∈ hybridSemPass w maxSem semResults, 0 ≤ kv.2.2 ∧ kv.2.2 ≤ 1 - w := by
  unfold hybridSemPass
  have main : ∀ (rs : List (LemmaInfo × ℚ)) (d : List (Str × (LemmaInfo × ℚ))),
      (∀ p ∈ rs, 0 ≤ p.2 ∧ p.2 ≤ maxSem) →
      (∀ kv ∈ d, 0 ≤ kv.2.2 ∧ kv.2.2 ≤ 1 - w) →
      ∀ kv ∈ rs.foldl (fun d ls =>
          let normalized := if maxSem > 0 then ls.2 / maxSem else 0
          dictSet d ls.1.name (ls.1, normalized * (1 - w))) d,
        0 ≤ kv.2.2 ∧ kv.2.2 ≤ 1 - w := by
    intro rs
    induction rs with
    | nil => intro d _ hd; exact hd
    | cons p rs2 ih =>
      intro d hrs hd
      apply ih
      · intro x hx
        exact hrs x (List.mem_cons_of_mem _ hx)
      · show ∀ kv ∈ dictSet d p.1.name
            (p.1, (if maxSem > 0 then p.2 / maxSem else 0) * (1 - w)), _
        refine dictSet_forall (fun v => 0 ≤ v.2 ∧ v.2 ≤ 1 - w) d p.1.name _ hd ?_
        have hnorm : 0 ≤ (if maxSem > 0 then p.2 / maxSem else 0) ∧
            (if maxSem > 0 then p.2 / maxSem else 0) ≤ 1 := by
          by_cases hm : maxSem > 0
          · rw [if_pos hm]
            obtain ⟨h0, h1⟩ := hrs p (List.mem_cons_self _ _)
            exact ⟨div_nonneg h0 hm.le, (div_le_one hm).mpr h1⟩
          · rw [if_neg hm]
            exact ⟨le_rfl, by linarith⟩
        constructor
        · exact mul_nonneg hnorm.1 (by linarith)
        · calc (if maxSem > 0 then p.2 / maxSem else 0) * (1 - w)
              ≤ 1 * (1 - w) := by
                apply mul_le_mul_of_nonneg_right hnorm.2
                linarith
            _ = 1 - w := one_mul _
  intro kv hkv
  exact main semResults [] hsem (by simp) kv hkv

theorem kwPass_bounds (w maxKw : ℚ) (hw0 : 0 ≤ w) (hw1 : w ≤ 1) :
    ∀ (rest : List (LemmaInfo × ℚ)) (d : List (Str × (LemmaInfo × ℚ))),
      (∀ p ∈ rest, 0 < p.2 ∧ p.2 ≤ maxKw) →
      (rest.map (·.1.name)).Nodup →
      (∀ kv ∈ d, 0 ≤ kv.2.2 ∧
        (kv.2.2 ≤ 1 - w ∨ (kv.2.2 ≤ 1 ∧ kv.1 ∉ rest.map (·.1.name)))) →
      ∀ kv ∈ hybridKwPass w maxKw rest d, 0 ≤ kv.2.2 ∧ kv.2.2 ≤ 1 := by
  intro rest
  induction rest with
  | nil =>
    intro d _ _ hd kv hkv
    obtain ⟨h0, h1⟩ := hd kv hkv
    rcases h1 with h1 | ⟨h1, -⟩
    · exact ⟨h0, by linarith⟩
    · exact ⟨h0, h1⟩
  | cons p rest2 ih =>
    intro d hpos hnodup hd
    show ∀ kv ∈ hybridKwPass w maxKw rest2 _, _
    have hns : 0 ≤ (if maxKw > 0 then p.2 / maxKw else 0) ∧
        (if maxKw > 0 then p.2 / maxKw else 0) ≤ 1 := by
      by_cases hm : maxKw > 0
      · rw [if_pos hm]
        obtain ⟨h0, h1⟩ := hpos p (List.mem_cons_self _ _)
        exact ⟨div_nonneg h0.le hm.le, (div_le_one hm).mpr h1⟩
      · rw [if_neg hm]
        exact ⟨le_rfl, by linarith⟩
    have hnotin : p.1.name ∉ rest2.map (·.1.name) := by
      rw [List.map_cons, List.nodup_cons] at hnodup
      exact hnodup.1
    apply ih
    · intro x hx
      exact hpos x (List.mem_cons_of_mem _ hx)
    · rw [List.map_cons, List.nodup_cons] at hnodup
      exact hnodup.2
    · have hdkeep : ∀ kv ∈ d, 0 ≤ kv.2.2 ∧
          (kv.2.2 ≤ 1 - w ∨ (kv.2.2 ≤ 1 ∧ kv.1 ∉ rest2.map (·.1.name))) := by
        intro kv hkv
        obtain ⟨h0, h1⟩ := hd kv hkv
        refine ⟨h0, ?_⟩
        rcases h1 with h1 | ⟨h1, hnot⟩
        · exact Or.inl h1
        · exact Or.inr ⟨h1, fun hmem2 => hnot (List.mem_cons_of_mem _ hmem2)⟩
      show ∀ kv ∈ (match dictGet d p.1.name with
          | some lv => dictSet d p.1.name
              (lv.1, lv.2 + (if maxKw > 0 then p.2 / maxKw else 0) * w)
          | none => dictSet d p.1.name
              (p.1, (if maxKw > 0 then p.2 / maxKw else 0) * w)),
        (0 : ℚ) ≤ kv.2.2 ∧
          (kv.2.2 ≤ 1 - w ∨ (kv.2.2 ≤ (1 : ℚ) ∧ kv.1 ∉ rest2.map (·.1.name)))
      cases hget : dictGet d p.1.name with
      | some lv =>
        show ∀ kv ∈ dictSet d p.1.name
            (lv.1, lv.2 + (if maxKw > 0 then p.2 / maxKw else 0) * w), _
        have hmem : ∃ kv ∈ d, kv.1 = p.1.name ∧ kv.2 = lv := by
          unfold dictGet at hget
          obtain ⟨kv0, hf⟩ := Option.map_eq_some'.mp hget
          have hkv0 := List.mem_of_find?_eq_some hf.1
          have hp := List.find?_some hf.1
          exact ⟨kv0, hkv0, by simpa using hp, hf.2⟩
        obtain ⟨kv0, hkv0, hkey, hval⟩ := hmem
        have hlv := hd kv0 hkv0
        have hlvbound : lv.2 ≤ 1 - w := by
          rcases hlv.2 with h | ⟨-, hnot⟩
          · exact hval ▸ h
          · exact absurd (hkey ▸ List.mem_map_of_mem (·.1.name)
              (List.mem_cons_self p rest2)) hnot
        refine dictSet_forall_key (fun key v => 0 ≤ v.2 ∧
            (v.2 ≤ 1 - w ∨ (v.2 ≤ 1 ∧ key ∉ rest2.map (·.1.name))))
          d p.1.name _ hdkeep ?_
        constructor
        · have h2 : 0 ≤ lv.2 := hval ▸ hlv.1
          have h3 := mul_nonneg hns.1 hw0
          show 0 ≤ lv.2 + _ * w
          linarith
        · refine Or.inr ⟨?_, hnotin⟩
          show lv.2 + _ * w ≤ 1
          have h4 : (if maxKw > 0 then p.2 / maxKw else 0) * w ≤ 1 * w :=
            mul_le_mul_of_nonneg_right hns.2 hw0
          linarith
      | none =>
        show ∀ kv ∈ dictSet d p.1.name
            (p.1, (if maxKw > 0 then p.2 / maxKw else 0) * w), _
        refine dictSet_forall_key (fun key v => 0 ≤ v.2 ∧
            (v.2 ≤ 1 - w ∨ (v.2 ≤ 1 ∧ key ∉ rest2.map (·.1.name))))
          d p.1.name _ hdkeep ?_
        constructor
        · exact mul_nonneg hns.1 hw0
        · refine Or.inr ⟨?_, hnotin⟩
          calc (if maxKw > 0 then p.2 / maxKw else 0) * w ≤ 1 * w :=
              mul_le_mul_of_nonneg_right hns.2 hw0
            _ = w := one_mul w
            _ ≤ 1 := hw1

end VLF

namespace VLF

theorem filterMap_fst_sublist (g : LemmaInfo → Option (LemmaInfo × ℚ))
    (hg : ∀ l p, g l = some p → p.1 = l) (ls : List LemmaInfo) :
    ((ls.filterMap g).map (·.1)).Sublist ls := by
  induction ls with
  | nil => simp
  | cons l ls2 ih =>
    cases hgl : g l with
    | none =>
      rw [List.filterMap_cons_none hgl]
      exact ih.cons l
    | some p =>
      rw [List.filterMap_cons_some hgl]
      rw [List.map_cons, hg l p hgl]
      exact ih.cons₂ l

theorem keyword_search_names_nodup (S : LemmaSearcher) (q : Str) (k : Nat)
    (h : (S.lemmas.map (·.name)).Nodup) :
    ((keyword_search S q k).map (·.1.name)).Nodup := by
  set g : LemmaInfo → Option (LemmaInfo × ℚ) := fun l =>
    let score := keywordScore S (termSet q) l
    if score > 0 then some (l, score) else none with hg
  have hgp : ∀ l p, g l = some p → p.1 = l := by
    intro l p hlp
    rw [hg] at hlp
    by_cases hs : keywordScore S (termSet q) l > 0
    · simp only [hs, if_true, Option.some.injEq] at hlp
      rw [← hlp]
    · simp [hs] at hlp
  have h1 := (filterMap_fst_sublist g hgp S.lemmas).map (·.name)
  have h2 : ((S.lemmas.filterMap g).map (·.1.name)).Nodup := by
    have heq : ((S.lemmas.filterMap g).map (·.1)).map (·.name) =
        (S.lemmas.filterMap g).map (·.1.name) := by
      rw [List.map_map]
      rfl
    exact (heq ▸ h1).nodup h
  have h3 : ((sortByScore (S.lemmas.filterMap g)).map (·.1.name)).Nodup := by
    unfold sortByScore
    have hperm := (List.perm_insertionSort (fun a b => a.2 ≥ b.2)
      (S.lemmas.filterMap g)).map (·.1.name)
    exact hperm.nodup_iff.mpr h2
  show (((sortByScore (S.lemmas.filterMap g)).take k).map (·.1.name)).Nodup
  exact ((List.take_sublist k (sortByScore (S.lemmas.filterMap g))).map
    (fun x => x.1.name)).nodup h3

end VLF

namespace VLF

/-- The two-identically-named-lemmas engine of the C5 counterexample. -/
def dupEngine : LemmaSearcher :=
  { lemmas := [mkLemma "L".toList "d".toList "s".toList [] [],
               mkLemma "L".toList "d".toList "s".toList [] []]
  , embeddings := some (fun _ _ => 1) }

/-- C5 fails as stated: with two lemmas sharing one name (tolerated by the
data model), both keyword hits add their keyword share to the same
dictionary entry, so the fused score reaches 7/10 + 3/10 + 3/10 = 13/10,
outside [0,1], even though every similarity is the nonnegative value 1 and
`keyword_weight` is the default 3/10. -/
theorem C5_counterexample :
    (hybrid_search dupEngine "L".toList 10).map (fun p => p.2) = [13/10] ∧
      ¬ ((13 : ℚ)/10 ≤ 1) := by
  constructor
  · decide
  · decide

/-- C5 (amended): every `keyword_search` score is positive, hence
non-negative; and every `hybrid_search` fused score lies in [0,1] provided
the similarity values are non-negative (the §4.4 normalization premise),
`keyword_weight` lies in [0,1], and the loaded lemma names are pairwise
distinct (with a duplicated name the keyword share can be added twice,
see the counterexample). -/
theorem C5_score_bounds :
    (∀ (S : LemmaSearcher) (q : Str) (k : Nat), ∀ p ∈ keyword_search S q k,
      (0 : ℚ) ≤ p.2) ∧
    (∀ (S : LemmaSearcher) (q : Str) (k : Nat) (sim : Str → Nat → ℚ),
      S.embeddings = some sim → 0 ≤ S.keyword_weight → S.keyword_weight ≤ 1 →
      (∀ i, 0 ≤ sim q i) → (S.lemmas.map (·.name)).Nodup →
      ∀ p ∈ hybrid_search S q k, 0 ≤ p.2 ∧ p.2 ≤ 1) := by
  constructor
  · intro S q k p hp
    exact (keyword_search_pos S q k p hp).le
  · intro S q k sim hemb hw0 hw1 hsim hnames p hp
    unfold hybrid_search hybrid_search_w at hp
    rw [hemb] at hp
    have hp2 : p ∈ (hybridKwPass S.keyword_weight
        (maxScore (keyword_search S q (k * 2))) (keyword_search S q (k * 2))
        (hybridSemPass S.keyword_weight
          (maxScore (semantic_search S q (k * 2)))
          (semantic_search S q (k * 2)))).map (·.2) := by
      have h1 := List.take_subset k _ hp
      unfold sortByScore at h1
      exact (List.perm_insertionSort _ _).mem_iff.mp h1
    obtain ⟨kv, hkv, hkvp⟩ := List.mem_map.mp hp2
    have hbound := kwPass_bounds S.keyword_weight
      (maxScore (keyword_search S q (k * 2))) hw0 hw1
      (keyword_search S q (k * 2))
      (hybridSemPass S.keyword_weight
        (maxScore (semantic_search S q (k * 2)))
        (semantic_search S q (k * 2)))
      (fun x hx => ⟨keyword_search_pos S q (k * 2) x hx,
        le_maxScore (keyword_search S q (k * 2)) x hx⟩)
      (keyword_search_names_nodup S q (k * 2) hnames)
      (fun kv2 hkv2 => by
        have := semPass_bounds S.keyword_weight
          (maxScore (semantic_search S q (k * 2)))
          (semantic_search S q (k * 2)) hw0 hw1
          (fun x hx => by
            obtain ⟨i, hi⟩ := semantic_search_mem S sim hemb q (k * 2) x hx
            exact ⟨hi ▸ hsim i, le_maxScore (semantic_search S q (k * 2)) x hx⟩)
          kv2 hkv2
        exact ⟨this.1, Or.inl this.2⟩)
      kv hkv
    rw [← hkvp]
    exact hbound

theorem C5_witness :
    ((0 : ℚ) ≤ 7) ∧ ((0 : ℚ) ≤ 1 ∧ (1 : ℚ) ≤ 1) :=
  ⟨C5_score_bounds.1 kwEngine "mod bound".toList 10
      (mkLemma "lemma_mod_bound".toList "modulo is bounded".toList
        "fn lemma_mod_bound(a: int, b: int)".toList
        ["b > 0".toList] ["a % b < b".toList], 7) (by decide),
   C5_score_bounds.2 embEngine "mod bound".toList 10 simOracle rfl (by decide)
     (by decide) (fun i => by unfold simOracle; split <;> split <;> decide)
     (by decide)
     (mkLemma "lemma_mod_bound".toList "modulo is bounded".toList
       "fn lemma_mod_bound(a: int, b: int)".toList
       ["b > 0".toList] ["a % b < b".toList], 1) (by decide)⟩

end VLF

namespace VLF

instance : IsTotal (LemmaInfo × ℚ) (fun a b => a.2 ≥ b.2) :=
  ⟨fun a b => le_total b.2 a.2⟩

instance : IsTrans (LemmaInfo × ℚ) (fun a b => a.2 ≥ b.2) :=
  ⟨fun _ _ _ h1 h2 => h2.trans h1⟩

theorem sortByScore_sorted (l : List (LemmaInfo × ℚ)) :
    (sortByScore l).Sorted (fun a b => a.2 ≥ b.2) :=
  List.sorted_insertionSort (fun a b => a.2 ≥ b.2) l

/-- The scores recorded for one lemma name in a result stream. -/
def scoresOf (name : Str) (stream : List (LemmaInfo × ℚ)) : List ℚ :=
  stream.filterMap (fun p => if p.1.name = name then some p.2 else none)

theorem scoresOf_append (name : Str) (a b : List (LemmaInfo × ℚ)) :
    scoresOf name (a ++ b) = scoresOf name a ++ scoresOf name b := by
  unfold scoresOf
  exact List.filterMap_append a b _

theorem dictGet_some_spec (d : List (Str × (LemmaInfo × ℚ))) (name : Str)
    (lv : LemmaInfo × ℚ) (hget : dictGet d name = some lv) :
    ∃ kv ∈ d, kv.1 = name ∧ kv.2 = lv := by
  unfold dictGet at hget
  obtain ⟨kv0, hf⟩ := Option.map_eq_some'.mp hget
  exact ⟨kv0, List.mem_of_find?_eq_some hf.1,
    by simpa using List.find?_some hf.1, hf.2⟩

theorem dictGet_none_spec (d : List (Str × (LemmaInfo × ℚ))) (name : Str)
    (hget : dictGet d name = none) : ∀ kv ∈ d, kv.1 ≠ name := by
  unfold dictGet at hget
  rw [Option.map_eq_none'] at hget
  intro kv hkv
  have := List.find?_eq_none.mp hget kv hkv
  simpa using this

theorem dictGet_ne_none_of_mem (d : List (Str × (LemmaInfo × ℚ)))
    (kv : Str × (LemmaInfo × ℚ)) (hkv : kv ∈ d) : dictGet d kv.1 ≠ none := by
  intro h
  exact dictGet_none_spec d kv.1 h kv hkv rfl

theorem nodup_keys_inj (d : List (Str × (LemmaInfo × ℚ)))
    (hnd : (d.map (·.1)).Nodup) (kv kv2 : Str × (LemmaInfo × ℚ))
    (h1 : kv ∈ d) (h2 : kv2 ∈ d) (hk : kv.1 = kv2.1) : kv = kv2 := by
  induction d with
  | nil => cases h1
  | cons x d2 ih =>
    rw [List.map_cons, List.nodup_cons] at hnd
    rcases List.mem_cons.mp h1 with he1 | hm1
    · rcases List.mem_cons.mp h2 with he2 | hm2
      · rw [he1, he2]
      · subst he1
        exact absurd (by rw [hk]; exact List.mem_map_of_mem (fun y => y.1) hm2) hnd.1
    · rcases List.mem_cons.mp h2 with he2 | hm2
      · subst he2
        exact absurd (by rw [← hk]; exact List.mem_map_of_mem (fun y => y.1) hm1) hnd.1
      · exact ih hnd.2 hm1 hm2

end VLF

namespace VLF

theorem mem_dictSet_elim (d : List (Str × (LemmaInfo × ℚ))) (key : Str)
    (v : LemmaInfo × ℚ) (kv' : Str × (LemmaInfo × ℚ)) (h : kv' ∈ dictSet d key v) :
    kv' = (key, v) ∨ (kv' ∈ d ∧ kv'.1 ≠ key) := by
  unfold dictSet at h
  by_cases hany : d.any (fun kv => kv.1 == key)
  · rw [if_pos hany] at h
    obtain ⟨kv2, hkv2, hmap⟩ := List.mem_map.mp h
    by_cases h2 : kv2.1 == key
    · rw [if_pos h2] at hmap
      exact Or.inl hmap.symm
    · rw [if_neg h2] at hmap
      exact Or.inr ⟨hmap ▸ hkv2, hmap ▸ (by simpa using h2)⟩
  · rw [if_neg hany] at h
    rcases List.mem_append.mp h with h2 | h2
    · refine Or.inr ⟨h2, ?_⟩
      intro hk
      rw [List.any_eq_true] at hany
      exact hany ⟨kv', h2, by simpa using hk⟩
    · exact Or.inl (by simpa using h2)

theorem mem_dictSet_self (d : List (Str × (LemmaInfo × ℚ))) (key : Str)
    (v : LemmaInfo × ℚ) : (key, v) ∈ dictSet d key v := by
  unfold dictSet
  by_cases hany : d.any (fun kv => kv.1 == key)
  · rw [if_pos hany]
    rw [List.any_eq_true] at hany
    obtain ⟨kv0, hkv0, hk⟩ := hany
    exact List.mem_map.mpr ⟨kv0, hkv0, by simp only [hk, if_true]⟩
  · rw [if_neg hany]
    exact List.mem_append_right _ (List.mem_singleton.mpr rfl)

theorem mem_dictSet_of_ne (d : List (Str × (LemmaInfo × ℚ))) (key : Str)
    (v : LemmaInfo × ℚ) (kv : Str × (LemmaInfo × ℚ)) (hkv : kv ∈ d)
    (hne : kv.1 ≠ key) : kv ∈ dictSet d key v := by
  unfold dictSet
  by_cases hany : d.any (fun kv => kv.1 == key)
  · rw [if_pos hany]
    have hb : (kv.1 == key) = false := by simpa using hne
    exact List.mem_map.mpr ⟨kv, hkv, by simp [hb]⟩
  · rw [if_neg hany]
    exact List.mem_append_left _ hkv

theorem dictSet_keys_nodup (d : List (Str × (LemmaInfo × ℚ))) (key : Str)
    (v : LemmaInfo × ℚ) (hnd : (d.map (·.1)).Nodup) :
    ((dictSet d key v).map (·.1)).Nodup := by
  unfold dictSet
  by_cases hany : d.any (fun kv => kv.1 == key)
  · rw [if_pos hany]
    have : (d.map (fun kv => if kv.1 == key then (key, v) else kv)).map (·.1) =
        d.map (·.1) := by
      rw [List.map_map]
      apply List.map_congr_left
      intro kv hkv
      by_cases h2 : kv.1 == key
      · simp only [Function.comp, h2, if_true]
        exact (by simpa using h2 : kv.1 = key).symm
      · simp [Function.comp, h2]
    rw [this]
    exact hnd
  · rw [if_neg hany]
    rw [List.map_append]
    rw [List.nodup_append]
    refine ⟨hnd, by simp, ?_⟩
    intro x hx hx2
    simp only [List.map_cons, List.map_nil, List.mem_singleton] at hx2
    subst hx2
    obtain ⟨kv0, hkv0, hk⟩ := List.mem_map.mp hx
    rw [List.any_eq_true] at hany
    exact hany ⟨kv0, hkv0, by simpa using hk⟩

end VLF

namespace VLF

theorem scoresOf_snoc (name : Str) (ps : List (LemmaInfo × ℚ)) (p : LemmaInfo × ℚ) :
    scoresOf name (ps ++ [p]) =
      scoresOf name ps ++ (if p.1.name = name then [p.2] else []) := by
  rw [scoresOf_append]
  congr 1
  unfold scoresOf
  by_cases h : p.1.name = name
  · simp [h]
  · simp [h]

/-- The invariant of the inter-variant merge loop of `fuzzy_search`: keys
are unique, each entry is keyed by its lemma's name, each entry's score is
the maximum of all scores recorded for that name in the processed stream,
and absent keys have no recorded scores. -/
def MergeInv (d : List (Str × (LemmaInfo × ℚ))) (processed : List (LemmaInfo × ℚ)) :
    Prop :=
  (d.map (·.1)).Nodup ∧
  (∀ kv ∈ d, kv.1 = kv.2.1.name) ∧
  (∀ kv ∈ d, kv.2.2 ∈ scoresOf kv.1 processed ∧
    ∀ t ∈ scoresOf kv.1 processed, t ≤ kv.2.2) ∧
  (∀ name, dictGet d name = none → scoresOf name processed = [])

theorem mergeStep_inv (d : List (Str × (LemmaInfo × ℚ)))
    (processed : List (LemmaInfo × ℚ)) (p : LemmaInfo × ℚ)
    (h : MergeInv d processed) : MergeInv (fuzzyMergeStep d p) (processed ++ [p]) := by
  obtain ⟨hnd, hname, hmax, hnone⟩ := h
  have hsnoc := scoresOf_snoc
  unfold fuzzyMergeStep
  cases hget : dictGet d p.1.name with
  | none =>
    have hnone2 : ∀ name, name ≠ p.1.name →
        dictGet (dictSet d p.1.name p) name = none → dictGet d name = none := by
      intro name hne hgetname
      rw [dictGet, Option.map_eq_none', List.find?_eq_none]
      intro kv hkv
      by_cases hkp : kv.1 = p.1.name
      · simp only [beq_iff_eq]
        rw [hkp]
        exact fun hh => hne hh.symm
      · have := dictGet_none_spec _ name hgetname kv
          (mem_dictSet_of_ne d p.1.name p kv hkv hkp)
        simpa using this
    refine ⟨dictSet_keys_nodup d _ p hnd, ?_, ?_, ?_⟩
    · intro kv hkv
      rcases mem_dictSet_elim d _ p kv hkv with hkv | ⟨hkv, -⟩
      · rw [hkv]
      · exact hname kv hkv
    · intro kv hkv
      rcases mem_dictSet_elim d _ p kv hkv with hkv | ⟨hkv, hne⟩
      · subst hkv
        rw [hsnoc, hnone p.1.name hget]
        constructor
        · simp
        · intro t ht
          simp only [List.nil_append, if_pos rfl] at ht
          have : t = p.2 := by simpa using ht
          exact this.le
      · rw [hsnoc]
        have hne2 : p.1.name ≠ kv.1 := fun hh => hne hh.symm
        rw [if_neg hne2, List.append_nil]
        exact hmax kv hkv
    · intro name hgetname
      have hne : name ≠ p.1.name := by
        intro hh
        subst hh
        exact (dictGet_ne_none_of_mem _ (p.1.name, p)
          (mem_dictSet_self d p.1.name p)) hgetname
      rw [hsnoc, hnone name (hnone2 name hne hgetname), if_neg (fun hh => hne hh.symm)]
      rfl
  | some lv =>
    show MergeInv (if p.2 > lv.2 then dictSet d p.1.name p else d) (processed ++ [p])
    obtain ⟨kv0, hkv0, hkey0, hval0⟩ := dictGet_some_spec d p.1.name lv hget
    by_cases hgt : p.2 > lv.2
    · rw [if_pos hgt]
      have hnone2 : ∀ name, name ≠ p.1.name →
          dictGet (dictSet d p.1.name p) name = none → dictGet d name = none := by
        intro name hne hgetname
        rw [dictGet, Option.map_eq_none', List.find?_eq_none]
        intro kv hkv
        by_cases hkp : kv.1 = p.1.name
        · simp only [beq_iff_eq]
          rw [hkp]
          exact fun hh => hne hh.symm
        · have := dictGet_none_spec _ name hgetname kv
            (mem_dictSet_of_ne d p.1.name p kv hkv hkp)
          simpa using this
      refine ⟨dictSet_keys_nodup d _ p hnd, ?_, ?_, ?_⟩
      · intro kv hkv
        rcases mem_dictSet_elim d _ p kv hkv with hkv | ⟨hkv, -⟩
        · rw [hkv]
        · exact hname kv hkv
      · intro kv hkv
        rcases mem_dictSet_elim d _ p kv hkv with hkv | ⟨hkv, hne⟩
        · subst hkv
          rw [hsnoc, if_pos rfl]
          constructor
          · simp
          · intro t ht
            rcases List.mem_append.mp ht with ht | ht
            · have := (hmax kv0 hkv0).2 t (hkey0 ▸ ht)
              rw [hval0] at this
              exact this.trans hgt.le
            · have : t = p.2 := by simpa using ht
              exact this.le
        · rw [hsnoc, if_neg (fun hh => hne hh.symm), List.append_nil]
          exact hmax kv hkv
      · intro name hgetname
        have hne : name ≠ p.1.name := by
          intro hh
          subst hh
          exact (dictGet_ne_none_of_mem _ (p.1.name, p)
          (mem_dictSet_self d p.1.name p)) hgetname
        rw [hsnoc, hnone name (hnone2 name hne hgetname), if_neg (fun hh => hne hh.symm)]
        rfl
    · rw [if_neg hgt]
      refine ⟨hnd, hname, ?_, ?_⟩
      · intro kv hkv
        rw [hsnoc]
        by_cases hk : p.1.name = kv.1
        · have hkveq : kv = kv0 :=
            nodup_keys_inj d hnd kv kv0 hkv hkv0 (hk.symm.trans hkey0.symm)
          rw [if_pos hk]
          constructor
          · exact List.mem_append_left _ (hmax kv hkv).1
          · intro t ht
            rcases List.mem_append.mp ht with ht | ht
            · exact (hmax kv hkv).2 t ht
            · have hteq : t = p.2 := by simpa using ht
              subst hteq
              rw [hkveq, hval0]
              exact not_lt.mp hgt
        · rw [if_neg hk, List.append_nil]
          exact hmax kv hkv
      · intro name hgetname
        have hne : name ≠ p.1.name := by
          intro hh
          rw [hh, hget] at hgetname
          cases hgetname
        rw [hsnoc, hnone name hgetname, if_neg (fun hh => hne hh.symm)]
        rfl

end VLF

namespace VLF

theorem mergeFold_inv (stream : List (LemmaInfo × ℚ))
    (d : List (Str × (LemmaInfo × ℚ))) (processed : List (LemmaInfo × ℚ))
    (h : MergeInv d processed) :
    MergeInv (stream.foldl fuzzyMergeStep d) (processed ++ stream) := by
  induction stream generalizing d processed with
  | nil => simpa using h
  | cons p s2 ih =>
    have h2 := ih (fuzzyMergeStep d p) (processed ++ [p]) (mergeStep_inv d processed p h)
    rw [List.append_assoc] at h2
    simpa using h2

theorem mergeInv_nil : MergeInv [] [] := by
  refine ⟨by simp, by simp, by simp, ?_⟩
  intro name _
  rfl

theorem foldl_nested (vs : List Str) (H : Str → List (LemmaInfo × ℚ))
    (d : List (Str × (LemmaInfo × ℚ))) :
    vs.foldl (fun d v => (H v).foldl fuzzyMergeStep d) d =
      ((vs.map H).flatten).foldl fuzzyMergeStep d := by
  induction vs generalizing d with
  | nil => rfl
  | cons v vs2 ih =>
    show vs2.foldl _ ((H v).foldl fuzzyMergeStep d) = _
    rw [ih ((H v).foldl fuzzyMergeStep d), List.map_cons, List.flatten_cons,
      List.foldl_append]

/-- The concatenation of the per-variant `hybrid_search(variant, 2*top_k)`
result lists explored by `fuzzy_search(q, top_k)`. -/
def variantResults (S : LemmaSearcher) (q : Str) (k : Nat) : List (LemmaInfo × ℚ) :=
  ((generate_variations (normalize q)).map (fun v => hybrid_search S v (k * 2))).flatten

/-- All scores recorded for one lemma name across the per-variant hybrid
result lists. -/
def variantScores (S : LemmaSearcher) (q : Str) (k : Nat) (name : Str) : List ℚ :=
  scoresOf name (variantResults S q k)

/-- C6: with embeddings available, `fuzzy_search` merges the per-variant
`hybrid_search` results keyed by lemma name and records, for each name, the
maximum (not the sum) of that name's scores over all query variants; the
merged set is then sorted descending by score and truncated to `top_k`. -/
theorem C6_fuzzy_merge_max (S : LemmaSearcher) (q : Str) (k : Nat)
    (sim : Str → Nat → ℚ) (hemb : S.embeddings = some sim) :
    (∀ p ∈ fuzzy_search S q k,
      p.2 ∈ variantScores S q k p.1.name ∧
      ∀ t ∈ variantScores S q k p.1.name, t ≤ p.2) ∧
    (fuzzy_search S q k).Sorted (fun a b => a.2 ≥ b.2) ∧
    (fuzzy_search S q k).length ≤ k := by
  have hfz : fuzzy_search S q k =
      ((((generate_variations (normalize q)).foldl
        (fun d variation => (hybrid_search S variation (k * 2)).foldl fuzzyMergeStep d)
        []).map (·.2)) |> sortByScore |>.take k) := by
    unfold fuzzy_search
    rw [hemb]
  have hflat := foldl_nested (generate_variations (normalize q))
    (fun v => hybrid_search S v (k * 2)) []
  have hinv := mergeFold_inv (variantResults S q k) [] [] mergeInv_nil
  rw [List.nil_append] at hinv
  refine ⟨?_, ?_, ?_⟩
  · intro p hp
    rw [hfz] at hp
    have hp2 := List.take_subset k _ hp
    unfold sortByScore at hp2
    have hp3 := (List.perm_insertionSort _ _).mem_iff.mp hp2
    obtain ⟨kv, hkv, hkvp⟩ := List.mem_map.mp hp3
    rw [hflat] at hkv
    have hkv2 : kv ∈ (variantResults S q k).foldl fuzzyMergeStep [] := hkv
    obtain ⟨-, hname, hmax, -⟩ := hinv
    have hkey : kv.1 = kv.2.1.name := hname kv hkv2
    have hm := hmax kv hkv2
    rw [hkey] at hm
    rw [hkvp] at hm
    exact hm
  · rw [hfz]
    exact (sortByScore_sorted _).sublist (List.take_sublist k _)
  · rw [hfz]
    exact List.length_take_le k _

end VLF

namespace VLF

theorem C6_witness :
    ((1 : ℚ) ∈ variantScores embEngine "a mod b when b > 0".toList 10
        "lemma_mod_bound".toList) ∧
      (fuzzy_search embEngine "a mod b when b > 0".toList 10).length ≤ 10 :=
  ⟨((C6_fuzzy_merge_max embEngine "a mod b when b > 0".toList 10 simOracle rfl).1
      (mkLemma "lemma_mod_bound".toList "modulo is bounded".toList
        "fn lemma_mod_bound(a: int, b: int)".toList
        ["b > 0".toList] ["a % b < b".toList], 1) (by decide)).1,
   (C6_fuzzy_merge_max embEngine "a mod b when b > 0".toList 10 simOracle rfl).2.2⟩

end VLF

namespace VLF

theorem char_toNat_ofNat (m : Nat) (h : m.isValidChar) : (Char.ofNat m).toNat = m := by
  rw [Char.ofNat, dif_pos h]
  rfl

theorem isUpper_toLower (c : Char) : (c.toLower).isUpper = false := by
  by_cases h : 65 ≤ c.toNat ∧ c.toNat ≤ 90
  · have hlow : c.toLower = Char.ofNat (c.toNat + 32) := by
      unfold Char.toLower
      rw [if_pos h]
    have hv : (c.toNat + 32).isValidChar := Or.inl (by omega)
    have hn := char_toNat_ofNat (c.toNat + 32) hv
    rw [hlow]
    unfold Char.isUpper
    have h97 : 97 ≤ (Char.ofNat (c.toNat + 32)).toNat := by omega
    apply Bool.and_eq_false_iff.mpr
    right
    rw [decide_eq_false_iff_not]
    intro hle
    have : (Char.ofNat (c.toNat + 32)).toNat ≤ 90 := by
      have := hle
      rw [UInt32.le_def, BitVec.le_def] at this
      simpa [Char.toNat] using this
    omega
  · have hlow : c.toLower = c := by
      unfold Char.toLower
      rw [if_neg h]
    rw [hlow]
    unfold Char.isUpper
    apply Bool.and_eq_false_iff.mpr
    by_cases h65 : 65 ≤ c.toNat
    · right
      rw [decide_eq_false_iff_not]
      intro hle
      rw [UInt32.le_def, BitVec.le_def] at hle
      have h90 : c.toNat ≤ 90 := by simpa [Char.toNat] using hle
      exact h ⟨h65, h90⟩
    · left
      rw [decide_eq_false_iff_not]
      intro hle
      rw [ge_iff_le, UInt32.le_def, BitVec.le_def] at hle
      have : 65 ≤ c.toNat := by simpa [Char.toNat] using hle
      exact h65 this

theorem toLower_idem (c : Char) : c.toLower.toLower = c.toLower :=
  toLower_of_not_upper c.toLower (isUpper_toLower c)

theorem toDigitsCore_digits (fuel : Nat) :
    ∀ (n : Nat) (ds : List Char), (∀ c ∈ ds, c.isDigit = true) →
      ∀ c ∈ Nat.toDigitsCore 10 fuel n ds, c.isDigit = true := by
  induction fuel with
  | zero => intro n ds hds; exact hds
  | succ fuel ih =>
    intro n ds hds c hc
    have hd : (Nat.digitChar (n % 10)).isDigit = true := by
      have hlt : n % 10 < 10 := Nat.mod_lt _ (by omega)
      interval_cases h : n % 10 <;> decide
    show c.isDigit = true
    unfold Nat.toDigitsCore at hc
    by_cases hz : n / 10 = 0
    · rw [if_pos hz] at hc
      rcases List.mem_cons.mp hc with h | h
      · rw [h]; exact hd
      · exact hds c h
    · rw [if_neg hz] at hc
      refine ih (n / 10) (Nat.digitChar (n % 10) :: ds) ?_ c hc
      intro x hx
      rcases List.mem_cons.mp hx with h | h
      · rw [h]; exact hd
      · exact hds x h

theorem genericName_word (i : Nat) : genericName i ≠ [] ∧
    ∀ c ∈ genericName i, isWordChar c = true := by
  constructor
  · simp [genericName]
  · intro c hc
    unfold genericName at hc
    rcases List.mem_append.mp hc with h | h
    · fin_cases h <;> decide
    · have : c.isDigit = true :=
        toDigitsCore_digits (i + 1 + 1) (i + 1) [] (by simp) c h
      unfold isWordChar Char.isAlphanum
      rw [this]
      simp

theorem genericName_head : ∀ i, ∃ t, genericName i = 'v' :: t :=
  fun i => ⟨"ar".toList ++ Nat.toDigits 10 (i + 1), rfl⟩

end VLF

namespace VLF

theorem subRun_status (key repl r : Str) (hrepl : ∀ c ∈ repl, isWordChar c = true)
    (hrne : repl ≠ []) : isWordRun (subRun key repl r) = isWordRun r := by
  unfold subRun
  by_cases h : isWordRun r && lower r == lower key
  · rw [if_pos h]
    have hw : isWordRun r = true := by
      rcases Bool.and_eq_true_iff.mp h with ⟨h1, -⟩
      exact h1
    rw [hw]
    match repl, hrne with
    | c :: t, _ =>
      show isWordChar c = true
      exact hrepl c (by simp)
  · rw [if_neg h]

theorem validRuns_map_subRun (key repl : Str) (L : List Str) (hL : ValidRuns L)
    (hrepl : ∀ c ∈ repl, isWordChar c = true) (hrne : repl ≠ []) :
    ValidRuns (L.map (subRun key repl)) := by
  obtain ⟨huni, hch⟩ := hL
  constructor
  · intro r hr
    obtain ⟨r0, hr0, hmap⟩ := List.mem_map.mp hr
    rw [← hmap]
    unfold subRun
    by_cases h : isWordRun r0 && lower r0 == lower key
    · rw [if_pos h]
      refine ⟨hrne, ?_⟩
      intro c hc
      rw [hrepl c hc]
      have : isWordRun repl = true := by
        match repl, hrne with
        | c2 :: t, _ => exact hrepl c2 (by simp)
      rw [this]
    · rw [if_neg h]
      exact huni r0 hr0
  · rw [List.chain'_map]
    apply List.Chain'.imp ?_ hch
    intro a b hab
    rw [subRun_status key repl a hrepl hrne, subRun_status key repl b hrepl hrne]
    exact hab

theorem runs_subWord_of_word_repl (key repl s : Str)
    (hrepl : ∀ c ∈ repl, isWordChar c = true) (hrne : repl ≠ []) :
    runs (subWord key repl s) = (runs s).map (subRun key repl) := by
  rw [subWord_eq_map_subRun]
  exact runs_flatten_valid _ (validRuns_map_subRun key repl (runs s) (runs_valid s) hrepl hrne)

end VLF

namespace VLF

theorem isSpaceChar_of_word (c : Char) (h : isWordChar c = true) :
    isSpaceChar c = false := by
  cases hs : isSpaceChar c
  · rfl
  · rw [isWordChar_of_isSpaceChar c hs] at h
    exact absurd h (by simp)

theorem isOpChar_of_word (c : Char) (h : isWordChar c = true) :
    isOpChar c = false := by
  cases hs : isOpChar c
  · rfl
  · rw [isWordChar_of_isOpChar c hs] at h
    exact absurd h (by simp)

theorem toLower_of_digit (c : Char) (h : c.isDigit = true) : c.toLower = c := by
  apply toLower_of_not_upper
  unfold Char.isDigit at h
  unfold Char.isUpper
  rcases Bool.and_eq_true_iff.mp h with ⟨h1, h2⟩
  rw [decide_eq_true_eq] at h1 h2
  have hle : c.toNat ≤ 57 := by
    rw [UInt32.le_def, BitVec.le_def] at h2
    simpa [Char.toNat] using h2
  apply Bool.and_eq_false_iff.mpr
  left
  rw [decide_eq_false_iff_not]
  intro hge
  have : 65 ≤ c.toNat := by
    rw [ge_iff_le, UInt32.le_def, BitVec.le_def] at hge
    simpa [Char.toNat] using hge
  omega

theorem genericName_lower (i : Nat) : lower (genericName i) = genericName i := by
  show List.map Char.toLower ("var".toList ++ Nat.toDigits 10 (i + 1)) =
    "var".toList ++ Nat.toDigits 10 (i + 1)
  rw [List.map_append]
  have h1 : List.map Char.toLower "var".toList = "var".toList := by decide
  have h2 : List.map Char.toLower (Nat.toDigits 10 (i + 1)) = Nat.toDigits 10 (i + 1) := by
    have hd : ∀ c ∈ Nat.toDigits 10 (i + 1), Char.toLower c = c := fun c hc =>
      toLower_of_digit c (toDigitsCore_digits (i + 1 + 1) (i + 1) [] (by simp) c hc)
    calc List.map Char.toLower (Nat.toDigits 10 (i + 1))
        = List.map id (Nat.toDigits 10 (i + 1)) := List.map_congr_left hd
      _ = Nat.toDigits 10 (i + 1) := List.map_id _
  rw [h1, h2]

theorem dropWhile_append_all (p : Char → Bool) (a b : Str)
    (h : ∀ c ∈ a, p c = true) : (a ++ b).dropWhile p = b.dropWhile p := by
  induction a with
  | nil => rfl
  | cons c t ih =>
    rw [List.cons_append, List.dropWhile_cons, h c (by simp), if_pos rfl]
    exact ih (fun x hx => h x (by simp [hx]))

theorem takeWhile_append_all (p : Char → Bool) (a b : Str)
    (h : ∀ c ∈ a, p c = true) : (a ++ b).takeWhile p = a ++ b.takeWhile p := by
  induction a with
  | nil => rfl
  | cons c t ih =>
    rw [List.cons_append, List.takeWhile_cons, h c (by simp), if_pos rfl,
      ih (fun x hx => h x (by simp [hx])), List.cons_append]

theorem dropWhile_head_false (p : Char → Bool) (l : Str) (d : Char) (t : Str)
    (h : l.dropWhile p = d :: t) : p d = false := by
  induction l with
  | nil => exact absurd h (by simp)
  | cons a l2 ih =>
    rw [List.dropWhile_cons] at h
    by_cases hp : p a = true
    · rw [hp, if_pos rfl] at h
      exact ih h
    · rw [Bool.not_eq_true] at hp
      rw [hp] at h
      simp only [Bool.false_eq_true, if_false, List.cons.injEq] at h
      rw [← h.1]
      exact hp

theorem subRun_nonword (key repl r : Str) (h : isWordRun r = false) :
    subRun key repl r = r := by
  unfold subRun
  rw [h]
  simp

end VLF

namespace VLF

theorem ciPrefix_false_of_head (key : Str) (k0 : Char) (kt : Str) (hkey : key = k0 :: kt)
    (c : Char) (t : Str) (hne : c.toLower ≠ k0.toLower) :
    ciPrefix key (c :: t) = false := by
  subst hkey
  unfold ciPrefix
  apply Bool.and_eq_false_iff.mpr
  right
  rw [beq_eq_false_iff_ne]
  intro h
  rw [List.length_cons, List.take_succ_cons] at h
  have h2 := congrArg List.head? h
  simp only [lower, List.map_cons, List.head?_cons, Option.some.injEq] at h2
  exact hne h2

theorem wordKeyAt (k W F : Str) (hkw : ∀ c ∈ k, isWordChar c = true)
    (hkl : lower k = k) (hW : ∀ c ∈ W, isWordChar c = true)
    (hF : ∀ d, F.head? = some d → isWordChar d = false) :
    (ciPrefix k (W ++ F) && noWordAhead ((W ++ F).drop k.length)) = (lower W == k) := by
  rcases Nat.lt_trichotomy W.length k.length with hlt | heq | hgt
  · have hrhs : (lower W == k) = false := by
      rw [beq_eq_false_iff_ne]
      intro h
      have h2 := congrArg List.length h
      simp only [lower, List.length_map] at h2
      omega
    rw [hrhs]
    apply Bool.and_eq_false_iff.mpr
    left
    match F, hF with
    | [], _ =>
      unfold ciPrefix
      apply Bool.and_eq_false_iff.mpr
      left
      rw [decide_eq_false_iff_not]
      simp only [List.append_nil]
      omega
    | d :: F2, hF =>
      have hd : isWordChar d = false := hF d rfl
      unfold ciPrefix
      apply Bool.and_eq_false_iff.mpr
      right
      rw [beq_eq_false_iff_ne, hkl]
      intro h
      have htake : (W ++ d :: F2).take k.length = W ++ (d :: F2).take (k.length - W.length) := by
        rw [List.take_append_eq_append_take, List.take_of_length_le (le_of_lt hlt)]
      obtain ⟨m, hm⟩ : ∃ m, k.length - W.length = m + 1 :=
        ⟨k.length - W.length - 1, by omega⟩
      rw [htake, hm, List.take_succ_cons] at h
      have hdk : d ∈ k := by
        rw [← h]
        unfold lower
        rw [List.map_append, List.map_cons, toLower_of_not_word d hd]
        exact List.mem_append_right _ (List.mem_cons_self _ _)
      rw [hkw d hdk] at hd
      exact absurd hd (by simp)
  · unfold ciPrefix
    rw [← heq, List.take_left, List.drop_left]
    have hlen : (decide (W.length ≤ (W ++ F).length)) = true := by
      rw [decide_eq_true_eq, List.length_append]
      omega
    rw [hlen, Bool.true_and, hkl]
    have hnwa : noWordAhead F = true := by
      match F, hF with
      | [], _ => rfl
      | d :: F2, hF =>
        show (!isWordChar d) = true
        rw [hF d rfl]
        rfl
    rw [hnwa, Bool.and_true]
  · have hrhs : (lower W == k) = false := by
      rw [beq_eq_false_iff_ne]
      intro h
      have h2 := congrArg List.length h
      simp only [lower, List.length_map] at h2
      omega
    rw [hrhs]
    apply Bool.and_eq_false_iff.mpr
    right
    have hdrop : (W ++ F).drop k.length = W.drop k.length ++ F := by
      rw [List.drop_append_eq_append_drop, Nat.sub_eq_zero_of_le (le_of_lt hgt),
        List.drop_zero]
    obtain ⟨w0, wt, hwt⟩ : ∃ w0 wt, W.drop k.length = w0 :: wt := by
      match hW2 : W.drop k.length with
      | [] =>
        have h2 := congrArg List.length hW2
        rw [List.length_drop] at h2
        simp at h2
        omega
      | w0 :: wt => exact ⟨w0, wt, rfl⟩
    have hw0 : w0 ∈ W := (List.drop_sublist ..).subset (hwt ▸ List.mem_cons_self _ _)
    rw [hdrop, hwt]
    show (!isWordChar w0) = false
    rw [hW w0 hw0]
    rfl

end VLF

namespace VLF

theorem wordKeyAt_if (W F : Str) (hW : ∀ c ∈ W, isWordChar c = true)
    (hF : ∀ d, F.head? = some d → isWordChar d = false) :
    (ciPrefix "if".toList (W ++ F) && noWordAhead ((W ++ F).drop 2)) =
      (lower W == "if".toList) :=
  wordKeyAt "if".toList W F (by decide) (by decide) hW hF

theorem wordKeyAt_then (W F : Str) (hW : ∀ c ∈ W, isWordChar c = true)
    (hF : ∀ d, F.head? = some d → isWordChar d = false) :
    (ciPrefix "then".toList (W ++ F) && noWordAhead ((W ++ F).drop 4)) =
      (lower W == "then".toList) :=
  wordKeyAt "then".toList W F (by decide) (by decide) hW hF

theorem varLookahead_word_front (W F : Str) (hWne : W ≠ [])
    (hW : ∀ c ∈ W, isWordChar c = true) : varLookahead (W ++ F) = false := by
  match W, hWne with
  | w :: W2, _ =>
    have hw : isWordChar w = true := hW w (by simp)
    have hws : isSpaceChar w = false := isSpaceChar_of_word w hw
    have hwo : isOpChar w = false := isOpChar_of_word w hw
    simp only [varLookahead, lookOp, lookIfThen, List.cons_append,
      List.dropWhile_cons, List.takeWhile_cons, hws, Bool.false_eq_true, if_false, hwo]
    simp

theorem varLookahead_nonspace (N X : Str) (d : Char) (N2 : Str)
    (hN : ∀ c ∈ N, isWordChar c = false)
    (hsplit : N.dropWhile isSpaceChar = d :: N2) :
    varLookahead (N ++ X) = isOpChar d := by
  have htw : ∀ c ∈ N.takeWhile isSpaceChar, isSpaceChar c = true :=
    fun c hc => List.mem_takeWhile_imp hc
  have hds : isSpaceChar d = false := dropWhile_head_false _ _ _ _ hsplit
  have hdw : isWordChar d = false :=
    hN d ((List.dropWhile_sublist ..).subset (hsplit ▸ List.mem_cons_self _ _))
  have hdl : d.toLower = d := toLower_of_not_word d hdw
  have hX : N ++ X = N.takeWhile isSpaceChar ++ (d :: (N2 ++ X)) := by
    conv_lhs => rw [← List.takeWhile_append_dropWhile isSpaceChar N]
    rw [hsplit, List.append_assoc, List.cons_append]
  have hif : ciPrefix "if".toList (d :: (N2 ++ X)) = false := by
    apply ciPrefix_false_of_head _ 'i' ['f'] rfl
    rw [hdl]
    intro h
    rw [show Char.toLower 'i' = 'i' from by decide] at h
    rw [h] at hdw
    exact absurd hdw (by decide)
  have hthen : ciPrefix "then".toList (d :: (N2 ++ X)) = false := by
    apply ciPrefix_false_of_head _ 't' ['h', 'e', 'n'] rfl
    rw [hdl]
    intro h
    rw [show Char.toLower 't' = 't' from by decide] at h
    rw [h] at hdw
    exact absurd hdw (by decide)
  rw [hX]
  simp only [varLookahead, lookOp, lookIfThen,
    dropWhile_append_all isSpaceChar (N.takeWhile isSpaceChar) (d :: (N2 ++ X)) htw,
    takeWhile_append_all isSpaceChar (N.takeWhile isSpaceChar) (d :: (N2 ++ X)) htw,
    List.dropWhile_cons, List.takeWhile_cons, hds,
    Bool.false_eq_true, if_false, List.append_nil, hif, hthen, Bool.false_and,
    Bool.or_self, Bool.and_false, Bool.or_false]

theorem varLookahead_space_word (N W F : Str) (hNne : N ≠ [])
    (hN : ∀ c ∈ N, isSpaceChar c = true) (hWne : W ≠ [])
    (hW : ∀ c ∈ W, isWordChar c = true)
    (hF : ∀ d, F.head? = some d → isWordChar d = false) :
    varLookahead (N ++ (W ++ F)) =
      ((lower W == "if".toList) || (lower W == "then".toList)) := by
  match W, hWne with
  | w :: W2, _ =>
    have hw : isWordChar w = true := hW w (by simp)
    have hws : isSpaceChar w = false := isSpaceChar_of_word w hw
    have hwo : isOpChar w = false := isOpChar_of_word w hw
    have hdw2 : ((w :: W2) ++ F).dropWhile isSpaceChar = (w :: W2) ++ F := by
      rw [List.cons_append, List.dropWhile_cons, hws]
      simp
    have htw2 : ((w :: W2) ++ F).takeWhile isSpaceChar = [] := by
      rw [List.cons_append, List.takeWhile_cons, hws]
      simp
    simp only [varLookahead, lookOp, lookIfThen,
      dropWhile_append_all isSpaceChar N ((w :: W2) ++ F) hN,
      takeWhile_append_all isSpaceChar N ((w :: W2) ++ F) hN,
      hdw2, htw2, List.append_nil]
    rw [wordKeyAt_if (w :: W2) F hW hF, wordKeyAt_then (w :: W2) F hW hF]
    rw [decide_eq_true hNne]
    simp only [List.cons_append, Bool.true_and, hwo, Bool.false_or]

end VLF

namespace VLF

theorem genericName_ne_if (i : Nat) : (lower (genericName i) == "if".toList) = false := by
  rw [genericName_lower, beq_eq_false_iff_ne]
  intro h
  obtain ⟨t, ht⟩ := genericName_head i
  rw [ht, show "if".toList = ['i', 'f'] from rfl] at h
  injection h with h1 h2
  exact absurd h1 (by decide)

theorem genericName_ne_then (i : Nat) : (lower (genericName i) == "then".toList) = false := by
  rw [genericName_lower, beq_eq_false_iff_ne]
  intro h
  obtain ⟨t, ht⟩ := genericName_head i
  rw [ht, show "then".toList = ['t', 'h', 'e', 'n'] from rfl] at h
  injection h with h1 h2
  exact absurd h1 (by decide)

theorem varLookahead_map_eq (v : Char) (i : Nat) (L : List Str) (hL : ValidRuns L) :
    varLookahead ((L.map (subRun [v] (genericName i))).flatten) =
      varLookahead L.flatten := by
  obtain ⟨huni, hch⟩ := hL
  rcases L with _ | ⟨r, rest⟩
  · rfl
  · obtain ⟨hrne, hru⟩ := huni r (by simp)
    by_cases hwr : isWordRun r = true
    · have hrw : ∀ c ∈ r, isWordChar c = true := fun c hc => by rw [hru c hc, hwr]
      have hsw : ∀ c ∈ subRun [v] (genericName i) r, isWordChar c = true := by
        unfold subRun
        by_cases hc : (isWordRun r && lower r == lower [v]) = true
        · rw [if_pos hc]
          exact (genericName_word i).2
        · rw [if_neg hc]
          exact hrw
      have hsne : subRun [v] (genericName i) r ≠ [] := by
        unfold subRun
        by_cases hc : (isWordRun r && lower r == lower [v]) = true
        · rw [if_pos hc]
          exact (genericName_word i).1
        · rw [if_neg hc]
          exact hrne
      rw [show (r :: rest).flatten = r ++ rest.flatten from by simp,
        show ((r :: rest).map (subRun [v] (genericName i))).flatten =
          subRun [v] (genericName i) r ++ (rest.map (subRun [v] (genericName i))).flatten
          from by simp]
      rw [varLookahead_word_front r rest.flatten hrne hrw,
        varLookahead_word_front _ _ hsne hsw]
    · have hwr2 : isWordRun r = false := by
        cases h : isWordRun r
        · rfl
        · exact absurd h hwr
      have hrnw : ∀ c ∈ r, isWordChar c = false := fun c hc => by rw [hru c hc, hwr2]
      have hsub : subRun [v] (genericName i) r = r := subRun_nonword _ _ _ hwr2
      rw [show (r :: rest).flatten = r ++ rest.flatten from by simp,
        show ((r :: rest).map (subRun [v] (genericName i))).flatten =
          r ++ (rest.map (subRun [v] (genericName i))).flatten from by simp [hsub]]
      rcases hdN : r.dropWhile isSpaceChar with _ | ⟨d, N2⟩
      · have hrs : ∀ c ∈ r, isSpaceChar c = true := by
          intro c hc
          exact List.dropWhile_eq_nil_iff.mp hdN c hc
        rcases rest with _ | ⟨W, rest2⟩
        · simp
        · rw [List.chain'_cons] at hch
          obtain ⟨hne1, hch2⟩ := hch
          have hWrun : isWordRun W = true := by
            cases h : isWordRun W
            · rw [h, hwr2] at hne1
              exact absurd rfl hne1
            · rfl
          obtain ⟨hWne, hWu⟩ := huni W (by simp)
          have hWw : ∀ c ∈ W, isWordChar c = true := fun c hc => by rw [hWu c hc, hWrun]
          have hFo : ∀ d2, rest2.flatten.head? = some d2 → isWordChar d2 = false := by
            rcases rest2 with _ | ⟨N3, M⟩
            · intro d2 hd2
              simp at hd2
            · rw [List.chain'_cons] at hch2
              have hN3run : isWordRun N3 = false := by
                cases h : isWordRun N3
                · rfl
                · rw [h, hWrun] at hch2
                  exact absurd rfl hch2.1
              obtain ⟨hN3ne, hN3u⟩ := huni N3 (by simp)
              obtain ⟨c, t, rfl⟩ : ∃ c t, N3 = c :: t := by
                match N3, hN3ne with
                | c :: t, _ => exact ⟨c, t, rfl⟩
              intro d2 hd2
              rw [show ((c :: t) :: M).flatten = c :: (t ++ M.flatten) from by simp,
                List.head?_cons, Option.some.injEq] at hd2
              rw [← hd2, hN3u c (by simp), hN3run]
          have hFm : ∀ d2,
              ((rest2.map (subRun [v] (genericName i))).flatten).head? = some d2 →
                isWordChar d2 = false := by
            rcases rest2 with _ | ⟨N3, M⟩
            · intro d2 hd2
              simp at hd2
            · rw [List.chain'_cons] at hch2
              have hN3run : isWordRun N3 = false := by
                cases h : isWordRun N3
                · rfl
                · rw [h, hWrun] at hch2
                  exact absurd rfl hch2.1
              obtain ⟨hN3ne, hN3u⟩ := huni N3 (by simp)
              have hsub3 : subRun [v] (genericName i) N3 = N3 :=
                subRun_nonword _ _ _ hN3run
              obtain ⟨c, t, hct⟩ : ∃ c t, N3 = c :: t := by
                match N3, hN3ne with
                | c :: t, _ => exact ⟨c, t, rfl⟩
              intro d2 hd2
              rw [show ((N3 :: M).map (subRun [v] (genericName i))).flatten =
                  N3 ++ (M.map (subRun [v] (genericName i))).flatten
                  from by simp [hsub3]] at hd2
              rw [hct, List.cons_append, List.head?_cons, Option.some.injEq] at hd2
              rw [← hd2, hN3u c (by rw [hct]; simp), hN3run]
          have hW2 := hWw
          by_cases hrep : (isWordRun W && lower W == lower [v]) = true
          · have hWg : subRun [v] (genericName i) W = genericName i := by
              unfold subRun
              rw [if_pos hrep]
            have hWlen : W.length = 1 := by
              have hbeq := (Bool.and_eq_true_iff.mp hrep).2
              have heq : lower W = [v.toLower] := eq_of_beq hbeq
              have hlen := congrArg List.length heq
              simp only [lower, List.length_map, List.length_cons,
                List.length_nil] at hlen
              exact hlen
            rw [show (W :: rest2).flatten = W ++ rest2.flatten from by simp,
              show ((W :: rest2).map (subRun [v] (genericName i))).flatten =
                subRun [v] (genericName i) W ++
                  (rest2.map (subRun [v] (genericName i))).flatten from by simp]
            rw [hWg]
            rw [varLookahead_space_word r W rest2.flatten hrne hrs hWne hWw hFo,
              varLookahead_space_word r (genericName i) _ hrne hrs
                (genericName_word i).1 (genericName_word i).2 hFm]
            rw [genericName_ne_if i, genericName_ne_then i]
            have h3 : (lower W == "if".toList) = false := by
              rw [beq_eq_false_iff_ne]
              intro h
              have hlen := congrArg List.length h
              simp only [lower, List.length_map, hWlen] at hlen
              exact absurd hlen (by decide)
            have h4 : (lower W == "then".toList) = false := by
              rw [beq_eq_false_iff_ne]
              intro h
              have hlen := congrArg List.length h
              simp only [lower, List.length_map, hWlen] at hlen
              exact absurd hlen (by decide)
            rw [h3, h4]
          · have hWid : subRun [v] (genericName i) W = W := by
              unfold subRun
              rw [if_neg hrep]
            rw [show (W :: rest2).flatten = W ++ rest2.flatten from by simp,
              show ((W :: rest2).map (subRun [v] (genericName i))).flatten =
                W ++ (rest2.map (subRun [v] (genericName i))).flatten
                from by simp [hWid]]
            rw [varLookahead_space_word r W rest2.flatten hrne hrs hWne hWw hFo,
              varLookahead_space_word r W _ hrne hrs hWne hWw hFm]
      · rw [varLookahead_nonspace r _ d N2 hrnw hdN,
          varLookahead_nonspace r _ d N2 hrnw hdN]

end VLF

namespace VLF

theorem findVarsRuns_map_subset (v : Char) (i : Nat) :
    ∀ (L : List Str), ValidRuns L →
      ∀ c ∈ findVarsRuns (L.map (subRun [v] (genericName i))),
        c ∈ findVarsRuns L ∧ c.toLower ≠ v.toLower := by
  intro L
  induction L with
  | nil =>
    intro _ c hc
    simp [findVarsRuns] at hc
  | cons r rest ih =>
    intro hL c hc
    have hrest : ValidRuns rest :=
      ⟨fun x hx => hL.1 x (List.mem_cons_of_mem _ hx), hL.2.tail⟩
    rw [List.map_cons] at hc
    rcases hx : subRun [v] (genericName i) r with _ | ⟨c0, _ | ⟨c1, t⟩⟩
    · rw [hx] at hc
      simp only [findVarsRuns, List.nil_append] at hc
      obtain ⟨hmem, hne⟩ := ih hrest c hc
      refine ⟨?_, hne⟩
      simp only [findVarsRuns, List.mem_append]
      exact Or.inr hmem
    · rw [hx] at hc
      simp only [findVarsRuns, List.mem_append] at hc
      rcases hc with hc | hc
      · by_cases hcond : (isWordChar c0 && isVarLetter c0 &&
            varLookahead ((rest.map (subRun [v] (genericName i))).flatten)) = true
        · rw [if_pos hcond] at hc
          have hcc0 : c = c0 := List.mem_singleton.mp hc
          subst hcc0
          have hword : isWordChar c = true := by
            rcases Bool.and_eq_true_iff.mp hcond with ⟨h1, -⟩
            exact (Bool.and_eq_true_iff.mp h1).1
          have hr : r = [c] := by
            unfold subRun at hx
            by_cases hrep : (isWordRun r && lower r == lower [v]) = true
            · rw [if_pos hrep] at hx
              rw [show genericName i = 'v' :: 'a' :: 'r' :: Nat.toDigits 10 (i + 1)
                from rfl] at hx
              simp at hx
            · rw [if_neg hrep] at hx
              exact hx
          have hrep2 : (isWordRun [c] && lower [c] == lower [v]) = false := by
            unfold subRun at hx
            rw [hr] at hx
            by_cases hrep : (isWordRun [c] && lower [c] == lower [v]) = true
            · rw [if_pos hrep] at hx
              rw [show genericName i = 'v' :: 'a' :: 'r' :: Nat.toDigits 10 (i + 1)
                from rfl] at hx
              simp at hx
            · cases h2 : (isWordRun [c] && lower [c] == lower [v])
              · rfl
              · exact absurd h2 hrep
          have hne : c.toLower ≠ v.toLower := by
            rcases Bool.and_eq_false_iff.mp hrep2 with h2 | h2
            · rw [show isWordRun [c] = isWordChar c from rfl, hword] at h2
              exact absurd h2 (by simp)
            · intro heq
              rw [show lower [c] = [c.toLower] from rfl,
                show lower [v] = [v.toLower] from rfl, heq] at h2
              simp at h2
          refine ⟨?_, hne⟩
          rw [varLookahead_map_eq v i rest hrest] at hcond
          rw [hr]
          simp only [findVarsRuns, List.mem_append]
          left
          rw [if_pos hcond]
          exact List.mem_singleton.mpr rfl
        · rw [if_neg hcond] at hc
          exact absurd hc (List.not_mem_nil c)
      · obtain ⟨hmem, hne⟩ := ih hrest c hc
        refine ⟨?_, hne⟩
        simp only [findVarsRuns, List.mem_append]
        exact Or.inr hmem
    · rw [hx] at hc
      simp only [findVarsRuns, List.nil_append] at hc
      obtain ⟨hmem, hne⟩ := ih hrest c hc
      refine ⟨?_, hne⟩
      simp only [findVarsRuns, List.mem_append]
      exact Or.inr hmem

theorem findVars_subWord (v : Char) (i : Nat) (s : Str) :
    ∀ c ∈ findVars (subWord [v] (genericName i) s),
      c ∈ findVars s ∧ c.toLower ≠ v.toLower := by
  intro c hc
  unfold findVars at hc
  rw [runs_subWord_of_word_repl [v] (genericName i) s (genericName_word i).2
    (genericName_word i).1] at hc
  exact findVarsRuns_map_subset v i (runs s) (runs_valid s) c hc

end VLF

namespace VLF

theorem dedupStep_lower :
    ∀ (l acc : List Char), (∀ c ∈ acc, c.toLower = c) →
      ∀ c ∈ l.foldl (fun acc2 v =>
        if (acc2.map Char.toLower).contains v.toLower then acc2
        else acc2 ++ [v.toLower]) acc, c.toLower = c := by
  intro l
  induction l with
  | nil =>
    intro acc hacc c hc
    exact hacc c hc
  | cons v l2 ih =>
    intro acc hacc c hc
    rw [List.foldl_cons] at hc
    by_cases hct : ((acc.map Char.toLower).contains v.toLower) = true
    · rw [if_pos hct] at hc
      exact ih acc hacc c hc
    · rw [if_neg hct] at hc
      refine ih _ ?_ c hc
      intro x hx
      rcases List.mem_append.mp hx with h | h
      · exact hacc x h
      · rw [List.mem_singleton.mp h]
        exact toLower_idem v

theorem dedupStep_mono :
    ∀ (l acc : List Char) (c : Char), c ∈ acc →
      c ∈ l.foldl (fun acc2 v =>
        if (acc2.map Char.toLower).contains v.toLower then acc2
        else acc2 ++ [v.toLower]) acc := by
  intro l
  induction l with
  | nil =>
    intro acc c hc
    exact hc
  | cons v l2 ih =>
    intro acc c hc
    rw [List.foldl_cons]
    by_cases hct : ((acc.map Char.toLower).contains v.toLower) = true
    · rw [if_pos hct]
      exact ih acc c hc
    · rw [if_neg hct]
      exact ih _ c (List.mem_append_left _ hc)

theorem dedupStep_mem :
    ∀ (l acc : List Char), (∀ x ∈ acc, x.toLower = x) →
      ∀ c ∈ l, c.toLower ∈ l.foldl (fun acc2 v =>
        if (acc2.map Char.toLower).contains v.toLower then acc2
        else acc2 ++ [v.toLower]) acc := by
  intro l
  induction l with
  | nil =>
    intro acc hacc c hc
    exact absurd hc (List.not_mem_nil c)
  | cons v l2 ih =>
    intro acc hacc c hc
    rw [List.foldl_cons]
    rcases List.mem_cons.mp hc with h | h
    · subst h
      by_cases hct : ((acc.map Char.toLower).contains c.toLower) = true
      · rw [if_pos hct]
        obtain ⟨u, hu, hut⟩ := List.mem_map.mp (List.elem_iff.mp hct)
        have : c.toLower ∈ acc := by
          rw [← hut, hacc u hu]
          exact hu
        exact dedupStep_mono l2 acc c.toLower this
      · rw [if_neg hct]
        exact dedupStep_mono l2 _ c.toLower
          (List.mem_append_right _ (List.mem_singleton.mpr rfl))
    · by_cases hct : ((acc.map Char.toLower).contains v.toLower) = true
      · rw [if_pos hct]
        exact ih acc hacc c h
      · rw [if_neg hct]
        refine ih _ ?_ c h
        intro x hx
        rcases List.mem_append.mp hx with h2 | h2
        · exact hacc x h2
        · rw [List.mem_singleton.mp h2]
          exact toLower_idem v

theorem dedupVars_lower (found : List Char) :
    ∀ c ∈ dedupVars found, c.toLower = c := by
  unfold dedupVars
  exact dedupStep_lower found [] (by simp)

theorem mem_dedupVars (found : List Char) :
    ∀ c ∈ found, c.toLower ∈ dedupVars found := by
  unfold dedupVars
  exact dedupStep_mem found [] (by simp)

theorem findVars_fold_nil (l : List (Nat × Char)) (s : Str)
    (hlow : ∀ p ∈ l, p.2.toLower = p.2)
    (h : ∀ c ∈ findVars s, c.toLower ∈ l.map (fun p => p.2)) :
    findVars (l.foldl (fun acc iv => subWord [iv.2] (genericName iv.1) acc) s) = [] := by
  induction l generalizing s with
  | nil =>
    rw [List.foldl_nil]
    rw [List.eq_nil_iff_forall_not_mem]
    intro c hc
    have := h c hc
    simp at this
  | cons p l2 ih =>
    rw [List.foldl_cons]
    refine ih (subWord [p.2] (genericName p.1) s)
      (fun q hq => hlow q (List.mem_cons_of_mem _ hq)) ?_
    intro c hc
    obtain ⟨hc1, hc2⟩ := findVars_subWord p.2 p.1 s c hc
    have hmem := h c hc1
    rw [List.map_cons] at hmem
    rcases List.mem_cons.mp hmem with he | hm
    · rw [hlow p (List.mem_cons_self _ _)] at hc2
      exact absurd he hc2
    · exact hm

end VLF

namespace VLF

theorem normalizeVariables_of_nil (q : Str) (h : findVars q = []) :
    normalizeVariables q = q := by
  unfold normalizeVariables
  rw [h]
  simp

theorem normalizeVariables_of_ne (q : Str) (h : ¬ findVars q = []) :
    normalizeVariables q =
      ((((dedupVars (findVars q)).insertionSort (· ≤ ·)).enum).foldl
        (fun acc iv => subWord [iv.2] (genericName iv.1) acc) q) := by
  unfold normalizeVariables
  rw [if_neg h]

theorem findVars_normalizeVariables (r : Str) :
    findVars (normalizeVariables r) = [] := by
  by_cases h : findVars r = []
  · rw [normalizeVariables_of_nil r h]
    exact h
  · rw [normalizeVariables_of_ne r h]
    apply findVars_fold_nil
    · intro p hp
      have hmem : p.2 ∈ ((dedupVars (findVars r)).insertionSort (· ≤ ·)).enum.map
          (fun x => x.2) := List.mem_map_of_mem _ hp
      rw [List.enum_map_snd] at hmem
      exact dedupVars_lower (findVars r) p.2
        ((List.perm_insertionSort (· ≤ ·) (dedupVars (findVars r))).mem_iff.mp hmem)
    · intro c hc
      rw [List.enum_map_snd]
      exact (List.perm_insertionSort (· ≤ ·) (dedupVars (findVars r))).mem_iff.mpr
        (mem_dedupVars (findVars r) c hc)

theorem foldl_subWordVar_preserves (l : List (Nat × Char)) (s : Str) (key2 : Str)
    (h : lower key2 ∉ (tokens s).map lower)
    (hrepl : ∀ j : Nat, lower key2 ∉ (tokens (genericName j)).map lower) :
    lower key2 ∉
      (tokens (l.foldl (fun acc iv => subWord [iv.2] (genericName iv.1) acc) s)).map
        lower := by
  induction l generalizing s with
  | nil => exact h
  | cons p l2 ih =>
    rw [List.foldl_cons]
    exact ih (subWord [p.2] (genericName p.1) s)
      (subWord_tokens_preserves key2 [p.2] (genericName p.1) s h (hrepl p.1))

theorem mathReplacements_head_ne_v :
    ∀ p ∈ mathReplacements, ¬ (lower p.1).head? = some 'v' := by decide

theorem genericName_tokens_keyfree (key2 : Str)
    (hk : ¬ (lower key2).head? = some 'v') :
    ∀ j : Nat, lower key2 ∉ (tokens (genericName j)).map lower := by
  intro j hmem
  rw [tokens_of_uniform_word (genericName j) (genericName_word j).1
    (genericName_word j).2] at hmem
  rw [List.map_cons, List.map_nil, List.mem_singleton] at hmem
  rw [genericName_lower j] at hmem
  obtain ⟨t, ht⟩ := genericName_head j
  rw [hmem, ht] at hk
  exact hk rfl

theorem normalize_keyfree (q : Str) :
    ∀ p ∈ mathReplacements, lower p.1 ∉ (tokens (normalize q)).map lower := by
  intro p hp
  show lower p.1 ∉ (tokens (normalizeVariables (normalizeOperators q))).map lower
  by_cases h : findVars (normalizeOperators q) = []
  · rw [normalizeVariables_of_nil _ h]
    exact normalizeOperators_keyfree q p hp
  · rw [normalizeVariables_of_ne _ h]
    exact foldl_subWordVar_preserves _ _ (p.1)
      (normalizeOperators_keyfree q p hp)
      (genericName_tokens_keyfree p.1 (mathReplacements_head_ne_v p hp))

theorem normalizeOperators_normalize (q : Str) :
    normalizeOperators (normalize q) = normalize q := by
  unfold normalizeOperators
  exact foldl_subWord_id_of_keyfree mathReplacements (normalize q) (normalize_keyfree q)

/-- C10: `normalize` is idempotent on every input string: the variable
replacement names `var1, var2, ...` consist of word characters, are never
single letters, never satisfy the variable pattern again, and contain no
operator-rewrite keyword, and operator rewrites never produce text matching
a rewrite keyword, so a second pass of `normalize` rewrites nothing. -/
theorem C10_normalize_idempotent (q : Str) :
    normalize (normalize q) = normalize q := by
  show normalizeVariables (normalizeOperators (normalize q)) = normalize q
  rw [normalizeOperators_normalize q]
  exact normalizeVariables_of_nil _ (findVars_normalizeVariables (normalizeOperators q))

end VLF

namespace VLF

example : findVars (normalize "if a times b <= c then a <= c div b".toList) = [] := by
  decide

example : normalize_operators_only (normalize "x times y".toList) =
    normalize "x times y".toList := by decide

end VLF
